import Mathlib

/-!
Verification of the PaddlePaddle distributed-tensor reshard engine and the
SOT compile cache, against a shallow embedding of the repository's code.

Part I embeds `python/paddle/jit/sot/symbolic/compile_cache.py`:
the `clear_eager_tensor_name` helper, the `FallbackWrapper` memoizing
wrapper, and the `CompileSIRCache` key/value functions.

Part II embeds the reshard strategy registry of
`python/paddle/distributed/auto_parallel/static/reshard_funcs/`:
`reshard_func_register.py` is in the repository; the strategy classes and
the registry primitives it references live in sibling modules that are not
part of the staged sources, so those are modelled from the specification
(each such definition carries a `Modelled from the spec:` doc comment).
-/

namespace CompileCache

/-- A symbolic intermediate representation (SIR). Only the aspects the
cache observes are modelled: its name and its string representation
(Python's `str(sir)`). -/
structure SIR where
  name : String
  str_repr : String
deriving DecidableEq

/-- The symbolic trace context, observed by the cache only through
`get_sir`. -/
structure SymbolicTraceContext where
  get_sir : String → SIR

/-- The keyword arguments accepted by `CompileSIRCache.key_fn` /
`value_fn`: `build_strategy` and `backend`, both optional.  `B` and `S`
stand for the (externally defined) build-strategy and backend types. -/
structure CompileKwargs (B S : Type) where
  build_strategy : Option B
  backend : Option S

/-- `CompileSIRCache.key_fn`: returns `hash(str(context.get_sir(sir_name)))`.
Python's `hash` on strings is modelled as an arbitrary function
`pyhash : String → Int` supplied as a parameter; `kwargs` is accepted and
ignored, exactly as in the source. -/
def key_fn {B S : Type} (pyhash : String → Int)
    (context : SymbolicTraceContext) (sir_name : String)
    (_kwargs : CompileKwargs B S) : Int :=
  pyhash (context.get_sir sir_name).str_repr

/-- An eager tensor, observed here through its `name` attribute and an
abstract payload. -/
structure Tensor where
  name : String
  value : Int
deriving DecidableEq

/-- `clear_eager_tensor_name`: sets the `name` of every output tensor to
the empty string (the in-place loop of the source becomes a map). -/
def clear_eager_tensor_name (output_tensors : List Tensor) : List Tensor :=
  output_tensors.map fun t => { t with name := "" }

/-- A concrete program, observed only through its `main_program`. -/
structure ConcreteProgram where
  main_program : String
deriving DecidableEq

/-- A partial program: a callable produced by `get_concrete_program`. -/
structure PartialProgram (Args : Type) where
  run : Args → List Tensor

/-- The static function produced by `paddle.jit.to_static`: callable, and
exposing `get_concrete_program`. -/
structure CompiledFn (Args : Type) where
  run : Args → List Tensor
  get_concrete_program : Args → ConcreteProgram × PartialProgram Args

/-- `FallbackWrapper`: stores a compiled function and memoizes the
partial/concrete programs extracted from it on first call. -/
structure FallbackWrapper (Args : Type) where
  compiled_fn : CompiledFn Args
  partial_program : Option (PartialProgram Args)
  concrete_program : Option ConcreteProgram
  sir : SIR

/-- `FallbackWrapper.__init__`: both memo fields start as `None`. -/
def FallbackWrapper.init {Args : Type} (compiled_fn : CompiledFn Args)
    (sir : SIR) : FallbackWrapper Args :=
  { compiled_fn := compiled_fn, partial_program := none,
    concrete_program := none, sir := sir }

/-- `FallbackWrapper.__call__`: on the first call (`partial_program is
None`) runs `compiled_fn` and stores the concrete/partial programs; on
later calls runs the stored `partial_program`.  Either way the output
tensor names are cleared before returning.  Returns the updated wrapper
state together with the outputs. -/
def FallbackWrapper.call {Args : Type} (w : FallbackWrapper Args)
    (args : Args) : FallbackWrapper Args × List Tensor :=
  match w.partial_program with
  | none =>
      let outputs := w.compiled_fn.run args
      let cp := (w.compiled_fn.get_concrete_program args).1
      let pp := (w.compiled_fn.get_concrete_program args).2
      ({ w with concrete_program := some cp, partial_program := some pp },
       clear_eager_tensor_name outputs)
  | some pp =>
      (w, clear_eager_tensor_name (pp.run args))

/-- `CompileSIRCache.value_fn`: builds a `FallbackWrapper` around
`paddle.jit.to_static(compile_sir(context, sir_name), build_strategy=…,
backend=…, enable_fallback=False)`.  `compile_sir` and `to_static` live
outside the staged sources and are taken as parameters: `to_static`
receives the function to compile, the `build_strategy` and `backend`
keyword arguments, and the `enable_fallback` flag. -/
def value_fn {Args B S F : Type}
    (compile_sir : SymbolicTraceContext → String → F)
    (to_static : F → Option B → Option S → Bool → CompiledFn Args)
    (context : SymbolicTraceContext) (sir_name : String)
    (kwargs : CompileKwargs B S) : FallbackWrapper Args :=
  FallbackWrapper.init
    (to_static (compile_sir context sir_name)
      kwargs.build_strategy kwargs.backend false)
    (context.get_sir sir_name)

/-- A trivial compiled function over `Unit`, used in concrete instances. -/
def emptyCF : CompiledFn Unit where
  run := fun _ => []
  get_concrete_program := fun _ =>
    ({ main_program := "" }, { run := fun _ => [] })

/-- A compiled function emitting one named tensor, used in concrete
instances. -/
def namedCF : CompiledFn Unit where
  run := fun _ => [{ name := "x", value := 7 }]
  get_concrete_program := fun _ =>
    ({ main_program := "" }, { run := fun _ => [] })

/-- A concrete SIR, used in concrete instances. -/
def demoSIR : SIR := { name := "s", str_repr := "s" }

/-- A wrapper whose memoized `partial_program` is already populated. -/
def warmWrapper : FallbackWrapper Unit where
  compiled_fn := emptyCF
  partial_program := some { run := fun _ => [] }
  concrete_program := none
  sir := demoSIR

/-- A freshly initialized wrapper around `namedCF`. -/
def coldWrapper : FallbackWrapper Unit := FallbackWrapper.init namedCF demoSIR

end CompileCache

namespace Reshard

/-- A device mesh (§3): a logical shape and the flat list of process ids.
Meshes are compared by value equality. -/
structure ProcessMesh where
  shape : List Nat
  process_ids : List Nat
deriving DecidableEq

/-- A distribution descriptor (§3): the mesh, `dims_mapping` (one entry
per tensor dimension, listing the mesh dimensions that shard it — empty
means unsharded), and `partial_dims` (mesh dimensions over which the
tensor is partially summed). -/
structure DistAttr where
  mesh : ProcessMesh
  dims_mapping : List (List Nat)
  partial_dims : List Nat
deriving DecidableEq

/-- Whether a list of naturals has no repeated element. -/
def nodupB : List Nat → Bool
  | [] => true
  | x :: xs => !(xs.contains x) && nodupB xs

/-- The mesh dimensions referenced by a `dims_mapping`. -/
def mappingRefs (dm : List (List Nat)) : List Nat :=
  dm.foldr (fun e acc => e ++ acc) []

/-- Modelled from the spec: the §3 data-model invariants of a `DistAttr`
as the supported strategies require them — each tensor dimension is
sharded along at most one mesh dimension, each mesh dimension shards at
most one tensor dimension, referenced and partial mesh dimensions exist
in the mesh, partial dimensions are not repeated, and no mesh dimension
is simultaneously partial and referenced by the mapping. -/
def validAttr (a : DistAttr) : Bool :=
  a.dims_mapping.all (fun e => e.length ≤ 1) &&
  nodupB (mappingRefs a.dims_mapping) &&
  (mappingRefs a.dims_mapping).all (fun j => j < a.mesh.shape.length) &&
  nodupB a.partial_dims &&
  a.partial_dims.all (fun j => j < a.mesh.shape.length) &&
  a.partial_dims.all (fun j => !(mappingRefs a.dims_mapping).contains j)

/-- The seven reshard strategies registered at startup, named after the
classes of `reshard_func_register.py`: `PToRReshardFunction`,
`PToRReshardFunctionCrossMesh`, `RToSReshardFunction`,
`RToSReshardFunctionCrossMesh`, `SameStatusReshardFunction`,
`SToRReshardFunction`, `SToRReshardFunctionCrossMesh`. -/
inductive ReshardFunc
  | pToR
  | pToRCrossMesh
  | rToS
  | rToSCrossMesh
  | sameStatus
  | sToR
  | sToRCrossMesh
deriving DecidableEq

/-- Whether the two attrs live on the same mesh (value equality, §3). -/
def sameMesh (src tgt : DistAttr) : Bool :=
  src.mesh == tgt.mesh

/-- Modelled from the spec: the cross-mesh relation of §4.7 — different
process membership, with coordinate-by-coordinate process pairing, which
requires the two meshes to share a logical shape. -/
def crossMeshOk (src tgt : DistAttr) : Bool :=
  src.mesh != tgt.mesh && src.mesh.shape == tgt.mesh.shape

/-- Modelled from the spec (§4.4): the target introduces exactly one new
shard assignment versus the source — the two mappings agree everywhere
except at one tensor dimension, unsharded in the source and sharded along
exactly one mesh dimension in the target. -/
def oneNewShard : List (List Nat) → List (List Nat) → Bool
  | [], [] => false
  | s :: ss, t :: ts =>
      if s = t then oneNewShard ss ts
      else s.isEmpty && t.length = 1 && ss == ts
  | _, _ => false

/-- Modelled from the spec (§4.6): the meshes represent the same process
group, with every mesh dimension used by the mapping or the partial set
keeping its size. -/
def meshRelabelOk (src tgt : DistAttr) : Bool :=
  src.mesh.process_ids == tgt.mesh.process_ids &&
  (mappingRefs src.dims_mapping ++ src.partial_dims).all
    (fun j => src.mesh.shape.getD j 0 == tgt.mesh.shape.getD j 0)

/-- Modelled from the spec (§4.2–§4.7): each strategy's suitability
predicate, true only when the (source, target) pair matches the
strategy's cell of the transition matrix precisely. -/
def is_suitable : ReshardFunc → DistAttr → DistAttr → Bool
  | ReshardFunc.pToR, src, tgt =>
      validAttr src && validAttr tgt &&
      !src.partial_dims.isEmpty && tgt.partial_dims.isEmpty &&
      src.dims_mapping == tgt.dims_mapping && sameMesh src tgt
  | ReshardFunc.pToRCrossMesh, src, tgt =>
      validAttr src && validAttr tgt &&
      !src.partial_dims.isEmpty && tgt.partial_dims.isEmpty &&
      src.dims_mapping == tgt.dims_mapping && crossMeshOk src tgt
  | ReshardFunc.rToS, src, tgt =>
      validAttr src && validAttr tgt &&
      src.partial_dims.isEmpty && tgt.partial_dims.isEmpty &&
      oneNewShard src.dims_mapping tgt.dims_mapping && sameMesh src tgt
  | ReshardFunc.rToSCrossMesh, src, tgt =>
      validAttr src && validAttr tgt &&
      src.partial_dims.isEmpty && tgt.partial_dims.isEmpty &&
      oneNewShard src.dims_mapping tgt.dims_mapping && crossMeshOk src tgt
  | ReshardFunc.sameStatus, src, tgt =>
      validAttr src && validAttr tgt &&
      src.dims_mapping == tgt.dims_mapping &&
      src.partial_dims == tgt.partial_dims &&
      (sameMesh src tgt || meshRelabelOk src tgt)
  | ReshardFunc.sToR, src, tgt =>
      validAttr src && validAttr tgt &&
      src.partial_dims.isEmpty && tgt.partial_dims.isEmpty &&
      oneNewShard tgt.dims_mapping src.dims_mapping && sameMesh src tgt
  | ReshardFunc.sToRCrossMesh, src, tgt =>
      validAttr src && validAttr tgt &&
      src.partial_dims.isEmpty && tgt.partial_dims.isEmpty &&
      oneNewShard tgt.dims_mapping src.dims_mapping && crossMeshOk src tgt

/-- Modelled from the spec (§4.1): `register_reshard_func` appends a
strategy to the registry's ordered list (its defining module
`base_reshard_func.py` is not among the staged sources). -/
def register_reshard_func (reg : List ReshardFunc) (f : ReshardFunc) :
    List ReshardFunc :=
  reg ++ [f]

/-- `register_reshard_funcs` of `reshard_func_register.py`: registers the
seven strategies in source order. -/
def register_reshard_funcs (reg : List ReshardFunc) : List ReshardFunc :=
  let reg := register_reshard_func reg ReshardFunc.pToR
  let reg := register_reshard_func reg ReshardFunc.pToRCrossMesh
  let reg := register_reshard_func reg ReshardFunc.rToS
  let reg := register_reshard_func reg ReshardFunc.rToSCrossMesh
  let reg := register_reshard_func reg ReshardFunc.sameStatus
  let reg := register_reshard_func reg ReshardFunc.sToR
  let reg := register_reshard_func reg ReshardFunc.sToRCrossMesh
  reg

/-- The registry as populated by the single module-level call
`register_reshard_funcs()` at the bottom of `reshard_func_register.py`. -/
def startupRegistry : List ReshardFunc := register_reshard_funcs []

/-- The error taxonomy of §7. -/
inductive ReshardError
  | noSuitableReshardStrategy
  | shapeMismatch
  | unshardableDimension
  | unreachablePeer
  | partialOverlapUnsupported
deriving DecidableEq

/-- Modelled from the spec (§4.1): `find(source_attr, target_attr,
tensor_shape)` scans the registered strategies in registration order and
returns the first whose suitability predicate accepts the pair, failing
with `NoSuitableReshardStrategy` when none does. -/
def find (reg : List ReshardFunc) (src tgt : DistAttr)
    (tensor_shape : List Nat) : Except ReshardError ReshardFunc :=
  match reg with
  | [] => Except.error ReshardError.noSuitableReshardStrategy
  | f :: rest =>
      if is_suitable f src tgt then Except.ok f
      else find rest src tgt tensor_shape

/-- Modelled from the spec (§3, §6): after startup only read requests
(strategy lookups) reach the registry; no dynamic re-registration occurs
after initialization. -/
inductive SteadyOp
  | findReq (src tgt : DistAttr) (tensor_shape : List Nat)

/-- Modelled from the spec (§3): the registry state a steady-state
operation leaves behind — lookups do not modify the registry. -/
def steadyStep (reg : List ReshardFunc) : SteadyOp → List ReshardFunc
  | SteadyOp.findReq _ _ _ => reg

/-- Ceiling division, `ceil(L / k)`. -/
def ceilDiv (L k : Nat) : Nat := (L + k - 1) / k

/-- Modelled from the spec: the slice sizes of Replicated→Sharded for a
tensor axis of length `L` split over a mesh dimension of size `k`.  §8
fixes the balanced split (axis length 10 over 3 processes yields slice
sizes 4, 3, 3) and §9 marks §4.4's "last shard absorbs the remainder"
formula as a placeholder pending verification; slice `i` therefore
receives one extra element exactly when `i < L % k`. -/
def sliceSizes (L k : Nat) : List Nat :=
  (List.range k).map fun i => L / k + if i < L % k then 1 else 0

/-- Modelled from the spec (§4.4): the Replicated→Sharded split fails
with `UnshardableDimension` when some process would receive a
zero-size slice. -/
def rToSSplit (L k : Nat) : Except ReshardError (List Nat) :=
  if (sliceSizes L k).all (fun s => 0 < s) then Except.ok (sliceSizes L k)
  else Except.error ReshardError.unshardableDimension

/-- A mesh with two processes on one axis, used in concrete instances. -/
def demoMesh : ProcessMesh := { shape := [2], process_ids := [0, 1] }

/-- A replicated descriptor on `demoMesh` for a rank-1 tensor. -/
def demoReplicated : DistAttr :=
  { mesh := demoMesh, dims_mapping := [[]], partial_dims := [] }

/-- A descriptor whose mapping shards tensor axis 0 along two mesh
dimensions at once — the unsupported target of §8's failure scenario. -/
def demoDoubleSharded : DistAttr :=
  { mesh := demoMesh, dims_mapping := [[0, 1]], partial_dims := [] }

/-- A dense tensor: a logical shape and the element stored at each
index (indices are coordinate lists; only valid indices are relevant). -/
structure Tensor where
  shape : List Nat
  data : List Nat → Int

/-- Whether `idx` is a valid index into a tensor of shape `shape`. -/
def validIdx : List Nat → List Nat → Bool
  | [], [] => true
  | d :: ds, i :: rest => i < d && validIdx ds rest
  | _, _ => false

/-- Extensional equality of tensors: equal shapes and equal data at every
valid index. -/
def tensorEq (T U : Tensor) : Prop :=
  T.shape = U.shape ∧
  ∀ idx, validIdx T.shape idx = true → T.data idx = U.data idx

/-- `local_slice` (§6): the contiguous slice of `T` along axis `a`
starting at `off` with length `len`. -/
def sliceAxis (T : Tensor) (a off len : Nat) : Tensor where
  shape := T.shape.set a len
  data := fun idx => T.data (idx.set a (idx.getD a 0 + off))

/-- `local_concat` (§6) of two tensors along axis `a`. -/
def concat2 (a : Nat) (T U : Tensor) : Tensor where
  shape := T.shape.set a (T.shape.getD a 0 + U.shape.getD a 0)
  data := fun idx =>
    if idx.getD a 0 < T.shape.getD a 0 then T.data idx
    else U.data (idx.set a (idx.getD a 0 - T.shape.getD a 0))

/-- Left fold of `concat2` over a list of further pieces. -/
def concatAxis (a : Nat) : Tensor → List Tensor → Tensor
  | T, [] => T
  | T, U :: rest => concatAxis a (concat2 a T U) rest

/-- Concatenation of a non-empty list of pieces along axis `a` (the empty
list yields an empty tensor). -/
def concatAll (a : Nat) : List Tensor → Tensor
  | [] => { shape := [], data := fun _ => 0 }
  | T :: rest => concatAxis a T rest

/-- Element-wise sum of two tensors (the shape of the first is kept). -/
def addTensor (T U : Tensor) : Tensor where
  shape := T.shape
  data := fun idx => T.data idx + U.data idx

/-- Element-wise sum of a list of tensors. -/
def sumTensors : List Tensor → Tensor
  | [] => { shape := [], data := fun _ => 0 }
  | T :: rest => rest.foldl addTensor T

/-- The size of slice `i` in the balanced split of a length-`L` axis into
`k` parts (see `sliceSizes`). -/
def sliceSize (L k i : Nat) : Nat :=
  L / k + if i < L % k then 1 else 0

/-- The offset of slice `i` in the balanced split of a length-`L` axis
into `k` parts. -/
def sliceOffset (L k i : Nat) : Nat :=
  i * (L / k) + min i (L % k)

/-- Modelled from the spec (§4.2–§4.4): which tensor axis gains the one
new shard assignment from source to target mapping, with the mesh
dimension it is sharded onto. -/
def findNewShard : List (List Nat) → List (List Nat) → Option (Nat × Nat)
  | s :: ss, t :: ts =>
      if s = t then (findNewShard ss ts).map (fun q => (q.1 + 1, q.2))
      else match s, t, ss == ts with
        | [], [j], true => some (0, j)
        | _, _, _ => none
  | _, _ => none

/-- One sharding step of `multiSlice`: apply the mapping entry `e` of the
tensor axis `a` to `T` — unsharded entries leave `T` alone, an entry
`j :: _` takes this process's slice of axis `a` (its coordinate along
mesh dimension `j` selects the slice of the balanced split). -/
def applyEntry (ms gs c : List Nat) (a : Nat) (e : List Nat)
    (T : Tensor) : Tensor :=
  match e with
  | [] => T
  | j :: _ =>
      sliceAxis T a
        (sliceOffset (gs.getD a 0) (ms.getD j 1) (c.getD j 0))
        (sliceSize (gs.getD a 0) (ms.getD j 1) (c.getD j 0))

/-- The local view of a global tensor under a `dims_mapping`, starting at
tensor axis `a` (mesh shape `ms`, global shape `gs`, process coordinate
`c`). -/
def multiSliceGo (ms gs c : List Nat) : Nat → List (List Nat) → Tensor →
    Tensor
  | _, [], T => T
  | a, e :: rest, T =>
      multiSliceGo ms gs c (a + 1) rest (applyEntry ms gs c a e T)

/-- The local buffer a process at mesh coordinate `c` holds for the
global tensor `T` under `dims_mapping` `dm`. -/
def multiSlice (T : Tensor) (dm : List (List Nat)) (ms gs c : List Nat) :
    Tensor :=
  multiSliceGo ms gs c 0 dm T

/-- The mesh coordinates of the processes in the reduction group of the
process at coordinate `c` over the mesh dimensions `P`. -/
def groupCoords (ms P c : List Nat) : List (List Nat) :=
  P.foldl
    (fun acc j =>
      acc.flatMap (fun c' => (List.range (ms.getD j 1)).map
        (fun v => c'.set j v)))
    [c]

/-- A distributed tensor (§3): its distribution descriptor, the logical
(unsharded) global shape, and the local buffer held by the process at
each mesh coordinate. -/
structure DistTensor where
  dist_attr : DistAttr
  global_shape : List Nat
  local_bufs : List Nat → Tensor

/-- Modelled from the spec (§4.3–§4.7): the execution step of each
strategy, SPMD over mesh coordinates.  Partial→Replicated sums the
reduction group; Replicated→Sharded takes each process's balanced slice
(failing with `UnshardableDimension` when a slice would be empty);
Sharded→Replicated concatenates the group's slices in ascending
mesh-coordinate order; Same-Status relabels the descriptor without data
movement.  The cross-mesh variants relocate buffers by matching mesh
coordinates index-by-index (§4.7) — in this coordinate-indexed model the
relocation preserves each coordinate's buffer — and then apply the same
local transformation. -/
def execute : ReshardFunc → DistTensor → DistAttr →
    Except ReshardError DistTensor
  | ReshardFunc.sameStatus, t, tgt =>
      Except.ok { t with dist_attr := tgt }
  | ReshardFunc.pToR, t, tgt | ReshardFunc.pToRCrossMesh, t, tgt =>
      Except.ok
        { dist_attr := tgt, global_shape := t.global_shape,
          local_bufs := fun c =>
            sumTensors ((groupCoords t.dist_attr.mesh.shape
              t.dist_attr.partial_dims c).map t.local_bufs) }
  | ReshardFunc.rToS, t, tgt | ReshardFunc.rToSCrossMesh, t, tgt =>
      match findNewShard t.dist_attr.dims_mapping tgt.dims_mapping with
      | some (a, j) =>
          match rToSSplit (t.global_shape.getD a 0)
              (tgt.mesh.shape.getD j 1) with
          | Except.error e => Except.error e
          | Except.ok _ =>
              Except.ok
                { dist_attr := tgt, global_shape := t.global_shape,
                  local_bufs := fun c =>
                    sliceAxis (t.local_bufs c) a
                      (sliceOffset (t.global_shape.getD a 0)
                        (tgt.mesh.shape.getD j 1) (c.getD j 0))
                      (sliceSize (t.global_shape.getD a 0)
                        (tgt.mesh.shape.getD j 1) (c.getD j 0)) }
      | none => Except.error ReshardError.noSuitableReshardStrategy
  | ReshardFunc.sToR, t, tgt | ReshardFunc.sToRCrossMesh, t, tgt =>
      match findNewShard tgt.dims_mapping t.dist_attr.dims_mapping with
      | some (a, j) =>
          Except.ok
            { dist_attr := tgt, global_shape := t.global_shape,
              local_bufs := fun c =>
                concatAll a
                  ((List.range (t.dist_attr.mesh.shape.getD j 1)).map
                    (fun i => t.local_bufs (c.set j i))) }
      | none => Except.error ReshardError.noSuitableReshardStrategy

/-- `reshard` (§6): resolve a strategy via the registry and execute
it. -/
def reshard (t : DistTensor) (tgt : DistAttr) :
    Except ReshardError DistTensor :=
  match find startupRegistry t.dist_attr tgt t.global_shape with
  | Except.error e => Except.error e
  | Except.ok f => execute f t tgt

/-- Modelled from the spec (§3, Glossary): the distributed tensor `t`
represents the logical tensor `F` — the descriptor is valid, mesh sizes
are positive, and there is a per-process contribution `G` such that each
process's buffer is its `dims_mapping`-slice of its contribution, and
summing contributions over any process's reduction group (over
`partial_dims`) recovers `F`. -/
def represents (t : DistTensor) (F : Tensor) : Prop :=
  validAttr t.dist_attr = true ∧
  t.dist_attr.mesh.shape.all (fun d => 0 < d) = true ∧
  F.shape = t.global_shape ∧
  t.dist_attr.dims_mapping.length = t.global_shape.length ∧
  ∃ G : List Nat → Tensor,
    ∀ c, validIdx t.dist_attr.mesh.shape c = true →
      (G c).shape = t.global_shape ∧
      tensorEq F (sumTensors ((groupCoords t.dist_attr.mesh.shape
        t.dist_attr.partial_dims c).map G)) ∧
      tensorEq (t.local_bufs c)
        (multiSlice (G c) t.dist_attr.dims_mapping
          t.dist_attr.mesh.shape t.global_shape c)

/-- A sharded descriptor on `demoMesh`: tensor axis 0 sharded along mesh
dimension 0. -/
def demoSharded : DistAttr :=
  { mesh := demoMesh, dims_mapping := [[0]], partial_dims := [] }

/-- A concrete logical tensor of shape [2]. -/
def demoF : Tensor where
  shape := [2]
  data := fun idx => (idx.headD 0 : Int)

/-- A concrete replicated distributed tensor holding `demoF`. -/
def demoDist : DistTensor where
  dist_attr := demoReplicated
  global_shape := [2]
  local_bufs := fun _ => demoF

end Reshard

namespace CompileCache

/-- C7: `key_fn` returns the hash of the string representation of the SIR
retrieved from the context under the given name, so two contexts whose
named SIRs stringify identically map to the same cache key. -/
theorem key_fn_structural_hash {B S : Type} (pyhash : String → Int)
    (ctx1 ctx2 : SymbolicTraceContext) (n1 n2 : String)
    (kw1 kw2 : CompileKwargs B S) :
    key_fn pyhash ctx1 n1 kw1 = pyhash (ctx1.get_sir n1).str_repr ∧
    ((ctx1.get_sir n1).str_repr = (ctx2.get_sir n2).str_repr →
      key_fn pyhash ctx1 n1 kw1 = key_fn pyhash ctx2 n2 kw2) :=
  ⟨rfl, fun h => by simp only [key_fn, h]⟩

/-- Witness for C7 at a concrete input: two distinct contexts whose SIRs
share a string representation receive the same key. -/
theorem key_fn_structural_hash_witness :
    key_fn (B := Unit) (S := Unit) (fun s => (s.length : Int))
        { get_sir := fun _ => { name := "sir0", str_repr := "body" } }
        "a" { build_strategy := none, backend := none } =
      key_fn (B := Unit) (S := Unit) (fun s => (s.length : Int))
        { get_sir := fun _ => { name := "sir1", str_repr := "body" } }
        "b" { build_strategy := some (), backend := none } :=
  (key_fn_structural_hash (fun s => (s.length : Int))
    { get_sir := fun _ => { name := "sir0", str_repr := "body" } }
    { get_sir := fun _ => { name := "sir1", str_repr := "body" } }
    "a" "b" { build_strategy := none, backend := none }
    { build_strategy := some (), backend := none }).2 rfl

/-- C8: the cache key is independent of the `build_strategy` and `backend`
keyword arguments, while `value_fn` passes exactly those arguments to
`to_static`; consequently there is a `to_static` and a pair of kwargs
under which the cached values differ although the keys agree. -/
theorem key_fn_kwargs_independent {Args B S F : Type} (pyhash : String → Int)
    (compile_sir : SymbolicTraceContext → String → F)
    (to_static : F → Option B → Option S → Bool → CompiledFn Args)
    (context : SymbolicTraceContext) (sir_name : String)
    (kw1 kw2 : CompileKwargs B S) :
    key_fn pyhash context sir_name kw1 = key_fn pyhash context sir_name kw2 ∧
    (value_fn compile_sir to_static context sir_name kw1).compiled_fn =
      to_static (compile_sir context sir_name)
        kw1.build_strategy kw1.backend false ∧
    ∃ (ts : F → Option Nat → Option Nat → Bool → CompiledFn Unit)
      (ka kb : CompileKwargs Nat Nat),
      key_fn pyhash context sir_name ka = key_fn pyhash context sir_name kb ∧
      value_fn compile_sir ts context sir_name ka ≠
        value_fn compile_sir ts context sir_name kb := by
  refine ⟨rfl, rfl, ?_⟩
  refine ⟨fun _ bs _ _ =>
    { run := fun _ => [{ name := "t", value := ((bs.getD 0 : Nat) : Int) }],
      get_concrete_program := fun _ =>
        ({ main_program := "" }, { run := fun _ => [] }) },
    { build_strategy := some 1, backend := none },
    { build_strategy := some 2, backend := none }, rfl, ?_⟩
  intro h
  have h2 := congrArg (fun w => w.compiled_fn.run ()) h
  simp only [value_fn, FallbackWrapper.init, Option.getD] at h2
  exact absurd (List.head_eq_of_cons_eq h2) (by decide)

/-- C9: `FallbackWrapper` memoizes its compilation: `partial_program`
starts as `None`; the first call stores the concrete and partial programs
obtained from `compiled_fn`; once `partial_program` is set, a call leaves
the state unchanged, returns the stored partial program's outputs, and its
result no longer depends on `compiled_fn`. -/
theorem fallback_wrapper_memoizes {Args : Type} (compiled_fn : CompiledFn Args)
    (s : SIR) (w : FallbackWrapper Args) (args : Args) :
    (FallbackWrapper.init compiled_fn s).partial_program = none ∧
    (w.partial_program = none →
      (w.call args).1.partial_program =
        some (w.compiled_fn.get_concrete_program args).2 ∧
      (w.call args).1.concrete_program =
        some (w.compiled_fn.get_concrete_program args).1) ∧
    (∀ pp, w.partial_program = some pp →
      (w.call args).1 = w ∧
      (w.call args).2 = clear_eager_tensor_name (pp.run args) ∧
      ∀ f, (FallbackWrapper.call { w with compiled_fn := f } args).2 =
        (w.call args).2) := by
  obtain ⟨cf, pp?, cp?, s0⟩ := w
  refine ⟨rfl, fun h => ?_, fun pp h => ?_⟩
  · cases h
    exact ⟨rfl, rfl⟩
  · cases h
    exact ⟨rfl, rfl, fun f => rfl⟩

/-- Witness for C9 at a concrete wrapper: the initialized wrapper has an
empty memo, and a call on a populated wrapper leaves it unchanged. -/
theorem fallback_wrapper_memoizes_witness :
    warmWrapper.partial_program = some { run := fun _ => [] } ∧
    (FallbackWrapper.init emptyCF demoSIR).partial_program = none ∧
    (warmWrapper.call ()).1 = warmWrapper := by
  refine ⟨rfl, ?_, ?_⟩
  · exact (fallback_wrapper_memoizes emptyCF demoSIR warmWrapper ()).1
  · exact ((fallback_wrapper_memoizes emptyCF demoSIR warmWrapper ()).2.2
      { run := fun _ => [] } rfl).1

/-- C10: every invocation of `FallbackWrapper.__call__` clears the name of
every tensor in its output: each returned tensor's `name` is `""`. -/
theorem fallback_wrapper_clears_names {Args : Type}
    (w : FallbackWrapper Args) (args : Args) (t : Tensor)
    (ht : t ∈ (w.call args).2) : t.name = "" := by
  rcases w with ⟨cf, pp?, cp?, s⟩
  cases pp? with
  | none =>
      simp only [FallbackWrapper.call, clear_eager_tensor_name,
        List.mem_map] at ht
      obtain ⟨u, _, hu⟩ := ht
      exact hu ▸ rfl
  | some pp =>
      simp only [FallbackWrapper.call, clear_eager_tensor_name,
        List.mem_map] at ht
      obtain ⟨u, _, hu⟩ := ht
      exact hu ▸ rfl

/-- Witness for C10 at a concrete wrapper whose compiled function emits a
named tensor: the returned tensor's name is cleared. -/
theorem fallback_wrapper_clears_names_witness :
    ({ name := "", value := 7 } : Tensor) ∈ (coldWrapper.call ()).2 ∧
    (({ name := "", value := 7 } : Tensor)).name = "" := by
  constructor
  · decide
  · exact fallback_wrapper_clears_names coldWrapper ()
      { name := "", value := 7 } (by decide)

end CompileCache

namespace Reshard

/-- C1: `find` scans the registered strategies in registration order and
returns the first whose suitability predicate accepts the pair; if none
accepts it fails with `NoSuitableReshardStrategy`; in particular any
target whose `dims_mapping` shards one tensor axis along two different
mesh dimensions is rejected by every startup strategy, so the call
fails. -/
theorem find_first_match (reg : List ReshardFunc) (src tgt : DistAttr)
    (shape : List Nat) :
    (find reg src tgt shape =
      match reg.find? (fun f => is_suitable f src tgt) with
      | some f => Except.ok f
      | none => Except.error ReshardError.noSuitableReshardStrategy) ∧
    (find reg src tgt shape =
        Except.error ReshardError.noSuitableReshardStrategy ↔
      ∀ f ∈ reg, is_suitable f src tgt = false) ∧
    (∀ i f, reg.get? i = some f → is_suitable f src tgt = true →
      (∀ j g, j < i → reg.get? j = some g → is_suitable g src tgt = false) →
      find reg src tgt shape = Except.ok f) ∧
    ((∃ e ∈ tgt.dims_mapping, 2 ≤ e.length) →
      find startupRegistry src tgt shape =
        Except.error ReshardError.noSuitableReshardStrategy) := by
  have h1 : ∀ l : List ReshardFunc, find l src tgt shape =
      match l.find? (fun f => is_suitable f src tgt) with
      | some f => Except.ok f
      | none => Except.error ReshardError.noSuitableReshardStrategy := by
    intro l
    induction l with
    | nil => rfl
    | cons f rest ih =>
        by_cases hf : is_suitable f src tgt
        · simp [find, hf, List.find?_cons_of_pos]
        · rw [show (f :: rest).find? (fun g => is_suitable g src tgt) =
              rest.find? (fun g => is_suitable g src tgt) from
            List.find?_cons_of_neg rest hf]
          simpa [find, hf] using ih
  have h2 : ∀ l : List ReshardFunc,
      (find l src tgt shape =
          Except.error ReshardError.noSuitableReshardStrategy ↔
        ∀ f ∈ l, is_suitable f src tgt = false) := by
    intro l
    rw [h1 l]
    cases hfind : l.find? (fun f => is_suitable f src tgt) with
    | none =>
        simp only [List.find?_eq_none] at hfind
        simpa using fun f hf => by simpa using hfind f hf
    | some f =>
        have hmem := List.mem_of_find?_eq_some hfind
        have hsuit := List.find?_some hfind
        simp only []
        constructor
        · intro h; cases h
        · intro h
          exact absurd hsuit (by simp [h f hmem])
  have h3 : ∀ (l : List ReshardFunc) i f, l.get? i = some f →
      is_suitable f src tgt = true →
      (∀ j g, j < i → l.get? j = some g → is_suitable g src tgt = false) →
      find l src tgt shape = Except.ok f := by
    intro l
    induction l with
    | nil => intro i f h; cases h
    | cons g rest ih =>
        intro i f hget hsuit hbefore
        cases i with
        | zero =>
            cases hget
            simp [find, hsuit]
        | succ i' =>
            have hg : is_suitable g src tgt = false := hbefore 0 g (by omega) rfl
            simp only [find, hg, if_false]
            exact ih i' f hget hsuit
              (fun j g' hj hget' => hbefore (j + 1) g' (by omega) hget')
  refine ⟨h1 reg, h2 reg, h3 reg, fun hbad => ?_⟩
  obtain ⟨e, he, hlen⟩ := hbad
  have hval : validAttr tgt = false := by
    by_contra h
    have h' : validAttr tgt = true := by revert h; cases validAttr tgt <;> simp
    simp only [validAttr, Bool.and_eq_true] at h'
    have hall := h'.1.1.1.1.1
    rw [List.all_eq_true] at hall
    have := hall e he
    simp at this
    omega
  exact (h2 startupRegistry).mpr fun f hf => by
    cases f <;> simp [is_suitable, hval]

/-- Witness for C1 at a concrete input: resharding a replicated rank-1
tensor to a target that shards axis 0 along both mesh dimensions fails
with `NoSuitableReshardStrategy`. -/
theorem find_first_match_witness :
    find startupRegistry demoReplicated demoDoubleSharded [10] =
      Except.error ReshardError.noSuitableReshardStrategy :=
  (find_first_match startupRegistry demoReplicated demoDoubleSharded
    [10]).2.2.2 ⟨[0, 1], by decide, by decide⟩

/-- C2: after startup registration the registry holds exactly the seven
strategies — the three single-mesh strategies, Same-Status, and the three
cross-mesh variants — one entry each and nothing else. -/
theorem startup_registry_exactly_seven :
    startupRegistry =
      [ReshardFunc.pToR, ReshardFunc.pToRCrossMesh, ReshardFunc.rToS,
       ReshardFunc.rToSCrossMesh, ReshardFunc.sameStatus, ReshardFunc.sToR,
       ReshardFunc.sToRCrossMesh] ∧
    startupRegistry.length = 7 ∧
    ∀ f : ReshardFunc, startupRegistry.count f = 1 := by
  refine ⟨rfl, rfl, fun f => ?_⟩
  cases f <;> rfl

/-- C3: `register` appends to the end of the ordered list, and in the
startup registration order each cross-mesh strategy appears strictly
after its single-mesh counterpart. -/
theorem register_appends_cross_after_single :
    (∀ (reg : List ReshardFunc) (f : ReshardFunc),
      register_reshard_func reg f = reg ++ [f]) ∧
    startupRegistry.indexOf ReshardFunc.pToR <
      startupRegistry.indexOf ReshardFunc.pToRCrossMesh ∧
    startupRegistry.indexOf ReshardFunc.rToS <
      startupRegistry.indexOf ReshardFunc.rToSCrossMesh ∧
    startupRegistry.indexOf ReshardFunc.sToR <
      startupRegistry.indexOf ReshardFunc.sToRCrossMesh :=
  ⟨fun _ _ => rfl, by decide, by decide, by decide⟩

/-- C6: the registry is populated exactly once, by the single
module-level `register_reshard_funcs()` call registering each strategy
once; steady-state operations never change it afterwards. -/
theorem registry_populated_once_then_frozen :
    startupRegistry = register_reshard_funcs [] ∧
    (∀ f : ReshardFunc, startupRegistry.count f = 1) ∧
    ∀ ops : List SteadyOp, ops.foldl steadyStep startupRegistry =
      startupRegistry := by
  refine ⟨rfl, fun f => by cases f <;> rfl, fun ops => ?_⟩
  induction ops with
  | nil => rfl
  | cons op rest ih => cases op; exact ih

/-- Counterexample to C4 as stated: on the modelled split the slice sizes
for axis length 10 over 3 processes are 4, 3, 3 as the claim requires,
but then the non-last slice at index 1 has size 3, not
`ceil(10/3) = 4`; moreover at length 5 over 4 processes the claimed
last-slice value `5 - 3 * ceil(5/4)` is negative while the split
succeeds. -/
theorem slice_sizes_counterexample :
    sliceSizes 10 3 = [4, 3, 3] ∧
    ceilDiv 10 3 = 4 ∧
    (sliceSizes 10 3).get? 1 = some 3 ∧
    ¬((sliceSizes 10 3).get? 1 = some (ceilDiv 10 3)) ∧
    rToSSplit 5 4 = Except.ok [2, 1, 1, 1] ∧
    ((5 : Int) - (4 - 1) * (ceilDiv 5 4 : Nat)) = -1 :=
  ⟨by decide, by decide, by decide, by decide, rfl, by decide⟩

/-- C4 amended: the Replicated→Sharded split is balanced — slice `i` has
size `L / k + 1` for `i < L % k` and `L / k` otherwise, the sizes sum to
`L`, the split fails with `UnshardableDimension` exactly when a slice
would be empty (i.e. when `L < k`), and axis length 10 over 3 processes
yields slice sizes 4, 3, 3. -/
theorem slice_sizes_balanced (L k : Nat) (hk : 0 < k) :
    (sliceSizes L k).length = k ∧
    (∀ i, i < k → (sliceSizes L k)[i]? =
      some (L / k + if i < L % k then 1 else 0)) ∧
    (sliceSizes L k).sum = L ∧
    (rToSSplit L k = Except.error ReshardError.unshardableDimension ↔
      L < k) ∧
    sliceSizes 10 3 = [4, 3, 3] := by
  have hmod : L % k < k := Nat.mod_lt _ hk
  refine ⟨by simp [sliceSizes], fun i hi => ?_, ?_, ?_, by decide⟩
  · simp [sliceSizes, List.getElem?_map, List.getElem?_range, hi]
  · have hsum : ∀ n : Nat,
        ((List.range n).map (fun i => L / k +
          if i < L % k then 1 else 0)).sum = n * (L / k) + min n (L % k) := by
      intro n
      induction n with
      | zero => simp
      | succ m ih =>
          rw [List.range_succ, List.map_append, List.sum_append, ih]
          simp only [List.map_cons, List.map_nil, List.sum_cons,
            List.sum_nil]
          rw [Nat.succ_mul]
          by_cases hm : m < L % k
          · rw [if_pos hm]; omega
          · rw [if_neg hm]; omega
    rw [sliceSizes, hsum k, min_eq_right (le_of_lt hmod),
      Nat.div_add_mod L k]
  · by_cases hLk : L < k
    · have hdiv : L / k = 0 := Nat.div_eq_of_lt hLk
      have hall : (sliceSizes L k).all (fun s => decide (0 < s)) = false := by
        rw [List.all_eq_false]
        refine ⟨L / k + if k - 1 < L % k then 1 else 0,
          List.mem_map.mpr ⟨k - 1, List.mem_range.mpr (by omega), rfl⟩, ?_⟩
        rw [hdiv, if_neg (by omega)]
        simp
      constructor
      · intro _; exact hLk
      · intro _; simp [rToSSplit, hall]
    · have hdiv : 1 ≤ L / k := (Nat.one_le_div_iff hk).mpr (by omega)
      have hall : (sliceSizes L k).all (fun s => decide (0 < s)) = true := by
        rw [List.all_eq_true]
        intro x hx
        obtain ⟨i, _, rfl⟩ := List.mem_map.mp hx
        simp only [decide_eq_true_eq]
        omega
      constructor
      · intro h
        rw [rToSSplit] at h
        simp [hall] at h
      · intro h; exact absurd h hLk

/-- Witness for C4's amended statement at a concrete input: axis length
10 over 3 processes yields slice sizes 4, 3, 3. -/
theorem slice_sizes_balanced_witness :
    0 < 3 ∧ sliceSizes 10 3 = [4, 3, 3] :=
  ⟨by decide, (slice_sizes_balanced 10 3 (by decide)).2.2.2.2⟩

end Reshard

namespace Reshard

/-- Setting then reading the same position of a list. -/
theorem getD_set_self (l : List Nat) (n v : Nat) (h : n < l.length) :
    (l.set n v).getD n 0 = v := by
  rw [List.getD_eq_getElem?_getD, List.getElem?_set_self h]
  rfl

/-- Setting one position leaves the others unchanged. -/
theorem getD_set_ne (l : List Nat) (n m v : Nat) (h : n ≠ m) :
    (l.set n v).getD m 0 = l.getD m 0 := by
  rw [List.getD_eq_getElem?_getD, List.getElem?_set_ne h,
    ← List.getD_eq_getElem?_getD]

/-- Writing back the value already stored is the identity. -/
theorem set_getD_self (l : List Nat) (n : Nat) (h : n < l.length) :
    l.set n (l.getD n 0) = l := by
  induction l generalizing n with
  | nil => simp at h
  | cons x xs ih =>
      cases n with
      | zero => rfl
      | succ m =>
          simp only [List.set, List.getD]
          rw [show (x :: xs).get? (m + 1) = xs.get? m from rfl]
          have := ih m (by simpa using h)
          simp only [List.getD] at this
          rw [this]

/-- `validIdx` unpacked: matching length and componentwise bounds. -/
theorem validIdx_iff (s idx : List Nat) : validIdx s idx = true ↔
    (idx.length = s.length ∧
      ∀ p, p < s.length → idx.getD p 0 < s.getD p 0) := by
  induction s generalizing idx with
  | nil =>
      cases idx with
      | nil => simp [validIdx]
      | cons i rest => simp [validIdx]
  | cons d ds ih =>
      cases idx with
      | nil => simp [validIdx]
      | cons i rest =>
          simp only [validIdx, Bool.and_eq_true, decide_eq_true_eq, ih,
            List.length_cons]
          constructor
          · rintro ⟨hi, hlen, hrest⟩
            refine ⟨by omega, fun p hp => ?_⟩
            cases p with
            | zero => simpa [List.getD] using hi
            | succ q =>
                have : q < ds.length := by omega
                simpa [List.getD] using hrest q this
          · rintro ⟨hlen, hall⟩
            refine ⟨?_, by omega, fun p hp => ?_⟩
            · simpa [List.getD] using hall 0 (by omega)
            · simpa [List.getD] using hall (p + 1) (by omega)

/-- Reflexivity of extensional tensor equality. -/
theorem tensorEq_refl (T : Tensor) : tensorEq T T :=
  ⟨rfl, fun _ _ => rfl⟩

/-- Symmetry of extensional tensor equality. -/
theorem tensorEq_symm {T U : Tensor} (h : tensorEq T U) : tensorEq U T := by
  obtain ⟨hs, hd⟩ := h
  exact ⟨hs.symm, fun idx hv => (hd idx (by rw [hs]; exact hv)).symm⟩

/-- Transitivity of extensional tensor equality. -/
theorem tensorEq_trans {T U V : Tensor} (h1 : tensorEq T U)
    (h2 : tensorEq U V) : tensorEq T V := by
  obtain ⟨hs1, hd1⟩ := h1
  obtain ⟨hs2, hd2⟩ := h2
  exact ⟨hs1.trans hs2, fun idx hv =>
    (hd1 idx hv).trans (hd2 idx (by rw [← hs1]; exact hv))⟩

/-- The offset of slice 0 is 0. -/
theorem sliceOffset_zero (L k : Nat) : sliceOffset L k 0 = 0 := by
  simp [sliceOffset]

/-- Offsets accumulate slice sizes. -/
theorem sliceOffset_succ (L k i : Nat) :
    sliceOffset L k (i + 1) = sliceOffset L k i + sliceSize L k i := by
  simp only [sliceOffset, sliceSize, Nat.succ_mul]
  by_cases h : i < L % k
  · rw [if_pos h]; omega
  · rw [if_neg h]; omega

/-- The offsets of a balanced `k`-way split exhaust the axis. -/
theorem sliceOffset_k (L k : Nat) (hk : 0 < k) : sliceOffset L k k = L := by
  have h1 : L % k < k := Nat.mod_lt _ hk
  have h2 := Nat.div_add_mod L k
  simp only [sliceOffset]
  have hmin : min k (L % k) = L % k := by omega
  rw [hmin]
  omega

/-- Offsets stay within the axis. -/
theorem sliceOffset_le (L k i : Nat) (hk : 0 < k) (hik : i ≤ k) :
    sliceOffset L k i ≤ L := by
  have h2 := Nat.div_add_mod L k
  have h3 : i * (L / k) ≤ k * (L / k) := Nat.mul_le_mul_right _ hik
  simp only [sliceOffset]
  omega

/-- Each slice ends within the axis. -/
theorem sliceOffset_add_size_le (L k i : Nat) (hik : i < k) :
    sliceOffset L k i + sliceSize L k i ≤ L := by
  rw [← sliceOffset_succ]
  exact sliceOffset_le L k (i + 1) (by omega) hik

/-- The offset of slice 1 equals the size of slice 0. -/
theorem sliceOffset_one (L k : Nat) :
    sliceOffset L k 1 = sliceSize L k 0 := by
  simp only [sliceOffset, sliceSize, one_mul]
  by_cases h : 0 < L % k
  · rw [if_pos h]; omega
  · rw [if_neg h]; omega

end Reshard

namespace Reshard

/-- A valid index of a sliced shape maps into a valid index of the
original shape. -/
theorem validIdx_slice_arg {s idx : List Nat} {a off len : Nat}
    (ha : a < s.length) (hb : off + len ≤ s.getD a 0)
    (hv : validIdx (s.set a len) idx = true) :
    validIdx s (idx.set a (idx.getD a 0 + off)) = true := by
  rw [validIdx_iff] at hv ⊢
  obtain ⟨hlen, hcomp⟩ := hv
  rw [List.length_set] at hlen
  refine ⟨by rw [List.length_set]; exact hlen, fun p hp => ?_⟩
  by_cases hpa : p = a
  · subst hpa
    rw [getD_set_self idx p _ (by omega)]
    have h0 := hcomp p (by rwa [List.length_set])
    rw [getD_set_self s p _ ha] at h0
    omega
  · rw [getD_set_ne idx a p _ (fun hh => hpa hh.symm)]
    have h0 := hcomp p (by rwa [List.length_set])
    rwa [getD_set_ne s a p _ (fun hh => hpa hh.symm)] at h0

/-- Slicing an axis at offset 0 with its full length changes nothing. -/
theorem slice_full (M : Tensor) (a L : Nat) (ha : a < M.shape.length)
    (hL : M.shape.getD a 0 = L) : tensorEq (sliceAxis M a 0 L) M := by
  constructor
  · show M.shape.set a L = M.shape
    rw [← hL]
    exact set_getD_self M.shape a ha
  · intro idx hv
    show M.data (idx.set a (idx.getD a 0 + 0)) = M.data idx
    have hlen : idx.length = M.shape.length := by
      have h1 := ((validIdx_iff _ idx).mp hv).1
      simpa [sliceAxis] using h1
    rw [Nat.add_zero, set_getD_self idx a (by omega)]

/-- `sliceAxis` respects extensional tensor equality. -/
theorem sliceAxis_congr {T U : Tensor} (h : tensorEq T U) (a off len : Nat)
    (ha : a < T.shape.length) (hb : off + len ≤ T.shape.getD a 0) :
    tensorEq (sliceAxis T a off len) (sliceAxis U a off len) := by
  obtain ⟨hs, hd⟩ := h
  constructor
  · show T.shape.set a len = U.shape.set a len
    rw [hs]
  · intro idx hv
    exact hd _ (validIdx_slice_arg ha hb hv)

/-- Concatenating the next slice onto the prefix of slices `0..t` gives
the prefix of slices `0..t+1`. -/
theorem concat2_slice_step (M : Tensor) (a L k t : Nat)
    (ha : a < M.shape.length) (htk : t < k) {X U : Tensor}
    (hX : tensorEq X (sliceAxis M a 0 (sliceOffset L k t)))
    (hU : tensorEq U (sliceAxis M a (sliceOffset L k t) (sliceSize L k t))) :
    tensorEq (concat2 a X U) (sliceAxis M a 0 (sliceOffset L k (t + 1))) := by
  obtain ⟨hXs, hXd⟩ := hX
  obtain ⟨hUs, hUd⟩ := hU
  have hXs' : X.shape = M.shape.set a (sliceOffset L k t) := hXs
  have hUs' : U.shape = M.shape.set a (sliceSize L k t) := hUs
  have hXa : X.shape.getD a 0 = sliceOffset L k t := by
    rw [hXs']; exact getD_set_self _ _ _ ha
  have hUa : U.shape.getD a 0 = sliceSize L k t := by
    rw [hUs']; exact getD_set_self _ _ _ ha
  have hshape : (concat2 a X U).shape =
      M.shape.set a (sliceOffset L k (t + 1)) := by
    show X.shape.set a (X.shape.getD a 0 + U.shape.getD a 0) = _
    rw [hXa, hUa, hXs', List.set_set, ← sliceOffset_succ]
  constructor
  · rw [hshape]; rfl
  · intro idx hv
    rw [hshape] at hv
    rw [validIdx_iff] at hv
    obtain ⟨hlen, hcomp⟩ := hv
    rw [List.length_set] at hlen
    have hidxa : idx.getD a 0 < sliceOffset L k (t + 1) := by
      have h0 := hcomp a (by rwa [List.length_set])
      rwa [getD_set_self _ _ _ ha] at h0
    show (if idx.getD a 0 < X.shape.getD a 0 then X.data idx
      else U.data (idx.set a (idx.getD a 0 - X.shape.getD a 0))) =
      M.data (idx.set a (idx.getD a 0 + 0))
    rw [hXa]
    by_cases hcase : idx.getD a 0 < sliceOffset L k t
    · rw [if_pos hcase]
      have hvX : validIdx X.shape idx = true := by
        rw [hXs', validIdx_iff]
        refine ⟨by rw [List.length_set]; exact hlen, fun p hp => ?_⟩
        rw [List.length_set] at hp
        by_cases hpa : p = a
        · subst hpa
          rwa [getD_set_self _ _ _ ha]
        · rw [getD_set_ne _ a p _ (fun hh => hpa hh.symm)]
          have h0 := hcomp p (by rwa [List.length_set])
          rwa [getD_set_ne _ a p _ (fun hh => hpa hh.symm)] at h0
      have h1 := hXd idx hvX
      rw [h1]
      show M.data (idx.set a (idx.getD a 0 + 0)) = _
      rfl
    · rw [if_neg hcase]
      have hsucc := sliceOffset_succ L k t
      have hvU : validIdx U.shape
          (idx.set a (idx.getD a 0 - sliceOffset L k t)) = true := by
        rw [hUs', validIdx_iff]
        refine ⟨by rw [List.length_set, List.length_set]; exact hlen,
          fun p hp => ?_⟩
        rw [List.length_set] at hp
        by_cases hpa : p = a
        · subst hpa
          rw [getD_set_self idx p _ (by omega), getD_set_self _ _ _ ha]
          omega
        · rw [getD_set_ne idx a p _ (fun hh => hpa hh.symm),
            getD_set_ne _ a p _ (fun hh => hpa hh.symm)]
          have h0 := hcomp p (by rwa [List.length_set])
          rwa [getD_set_ne _ a p _ (fun hh => hpa hh.symm)] at h0
      have h1 := hUd _ hvU
      rw [h1]
      show M.data ((idx.set a (idx.getD a 0 - sliceOffset L k t)).set a
        ((idx.set a (idx.getD a 0 - sliceOffset L k t)).getD a 0 +
          sliceOffset L k t)) = _
      rw [getD_set_self idx a _ (by omega), List.set_set]
      have harith : idx.getD a 0 - sliceOffset L k t + sliceOffset L k t =
          idx.getD a 0 + 0 := by omega
      rw [harith]

/-- Folding `concat2` over slices `t..k-1`, starting from anything equal
to the prefix of slices `0..t`, yields the whole axis. -/
theorem concat_go (M : Tensor) (a L k : Nat) (ha : a < M.shape.length)
    (hk : 0 < k) :
    ∀ (qs : List Tensor) (t : Nat) (X : Tensor), t + qs.length = k →
      tensorEq X (sliceAxis M a 0 (sliceOffset L k t)) →
      (∀ q U, qs.get? q = some U →
        tensorEq U (sliceAxis M a (sliceOffset L k (t + q))
          (sliceSize L k (t + q)))) →
      tensorEq (concatAxis a X qs) (sliceAxis M a 0 L) := by
  intro qs
  induction qs with
  | nil =>
      intro t X hsum hX _
      have ht : t = k := by simpa using hsum
      rw [ht] at hX
      rw [sliceOffset_k L k hk] at hX
      exact hX
  | cons U rest ih =>
      intro t X hsum hX hqs
      show tensorEq (concatAxis a (concat2 a X U) rest) _
      refine ih (t + 1) (concat2 a X U)
        (by simp only [List.length_cons] at hsum; omega) ?_ ?_
      · refine concat2_slice_step M a L k t ha
          (by simp only [List.length_cons] at hsum; omega) hX ?_
        simpa using hqs 0 U rfl
      · intro q V hV
        have h0 := hqs (q + 1) V (by simpa using hV)
        have harr : t + (q + 1) = t + 1 + q := by omega
        rwa [harr] at h0

/-- Concatenating, in ascending index order, tensors equal to the
balanced slices of `M` along axis `a` reconstructs `M`. -/
theorem concat_slices (M : Tensor) (a L k : Nat)
    (ha : a < M.shape.length) (hL : M.shape.getD a 0 = L) (hk : 0 < k)
    (ps : List Tensor) (hlen : ps.length = k)
    (hps : ∀ q U, ps.get? q = some U →
      tensorEq U (sliceAxis M a (sliceOffset L k q) (sliceSize L k q))) :
    tensorEq (concatAll a ps) M := by
  cases ps with
  | nil =>
      simp only [List.length_nil] at hlen
      omega
  | cons U rest =>
      have hstep : tensorEq (concatAxis a U rest) (sliceAxis M a 0 L) := by
        refine concat_go M a L k ha hk rest 1 U
          (by simp only [List.length_cons] at hlen; omega) ?_ ?_
        · have h0 := hps 0 U rfl
          rw [sliceOffset_zero] at h0
          rwa [sliceOffset_one]
        · intro q V hV
          have h0 := hps (q + 1) V (by simpa using hV)
          have harr : q + 1 = 1 + q := by omega
          rwa [harr] at h0
      exact tensorEq_trans hstep (slice_full M a L ha hL)

end Reshard

namespace Reshard

/-- `multiSliceGo` preserves the tensor rank. -/
theorem multiSliceGo_length (ms gs c : List Nat) :
    ∀ (dm : List (List Nat)) (a : Nat) (T : Tensor),
      (multiSliceGo ms gs c a dm T).shape.length = T.shape.length := by
  intro dm
  induction dm with
  | nil => intro a T; rfl
  | cons e rest ih =>
      intro a T
      show (multiSliceGo ms gs c (a + 1) rest
        (applyEntry ms gs c a e T)).shape.length = _
      rw [ih]
      cases e with
      | nil => rfl
      | cons j r =>
          show (T.shape.set a _).length = _
          rw [List.length_set]

/-- `multiSliceGo` leaves the length of every axis it does not shard
unchanged. -/
theorem multiSliceGo_shape_getD (ms gs c : List Nat) :
    ∀ (dm : List (List Nat)) (a : Nat) (T : Tensor) (b : Nat),
      (∀ p e, dm.get? p = some e → e ≠ [] → a + p ≠ b) →
      (multiSliceGo ms gs c a dm T).shape.getD b 0 = T.shape.getD b 0 := by
  intro dm
  induction dm with
  | nil => intro a T b _; rfl
  | cons e rest ih =>
      intro a T b hcond
      show (multiSliceGo ms gs c (a + 1) rest
        (applyEntry ms gs c a e T)).shape.getD b 0 = _
      have hshift : ∀ p e', rest.get? p = some e' → e' ≠ [] →
          (a + 1) + p ≠ b := by
        intro p e' hp hne
        have h0 := hcond (p + 1) e' (by simpa using hp) hne
        omega
      rw [ih (a + 1) (applyEntry ms gs c a e T) b hshift]
      cases e with
      | nil => rfl
      | cons j r =>
          have hab : a ≠ b := by
            have h0 := hcond 0 (j :: r) rfl (by simp)
            omega
          show (T.shape.set a _).getD b 0 = _
          exact getD_set_ne _ _ _ _ hab

/-- `multiSliceGo` depends only on the process coordinates along the mesh
dimensions its mapping references. -/
theorem multiSliceGo_coord_agree (ms gs : List Nat) :
    ∀ (dm : List (List Nat)) (a : Nat) (T : Tensor) (c c' : List Nat),
      (∀ p j r, dm.get? p = some (j :: r) → c.getD j 0 = c'.getD j 0) →
      multiSliceGo ms gs c a dm T = multiSliceGo ms gs c' a dm T := by
  intro dm
  induction dm with
  | nil => intro a T c c' _; rfl
  | cons e rest ih =>
      intro a T c c' hagree
      show multiSliceGo ms gs c (a + 1) rest (applyEntry ms gs c a e T) = _
      have hshift : ∀ p j r, rest.get? p = some (j :: r) →
          c.getD j 0 = c'.getD j 0 :=
        fun p j r hp => hagree (p + 1) j r (by simpa using hp)
      rw [ih (a + 1) (applyEntry ms gs c a e T) c c' hshift]
      show multiSliceGo ms gs c' (a + 1) rest (applyEntry ms gs c a e T) =
        multiSliceGo ms gs c' (a + 1) rest (applyEntry ms gs c' a e T)
      cases e with
      | nil => rfl
      | cons j r =>
          have happ : applyEntry ms gs c a (j :: r) T =
              applyEntry ms gs c' a (j :: r) T := by
            show sliceAxis T a _ _ = sliceAxis T a _ _
            rw [hagree 0 j r rfl]
          rw [happ]

/-- Slices along distinct axes commute. -/
theorem sliceAxis_comm (T : Tensor) (a b x y u v : Nat) (hab : a ≠ b) :
    sliceAxis (sliceAxis T a x y) b u v =
      sliceAxis (sliceAxis T b u v) a x y := by
  show Tensor.mk _ _ = Tensor.mk _ _
  congr 1
  · show (T.shape.set a y).set b v = (T.shape.set b v).set a y
    exact List.set_comm y v T.shape hab
  · funext idx
    show T.data ((idx.set b (idx.getD b 0 + u)).set a
        ((idx.set b (idx.getD b 0 + u)).getD a 0 + x)) =
      T.data ((idx.set a (idx.getD a 0 + x)).set b
        ((idx.set a (idx.getD a 0 + x)).getD b 0 + u))
    rw [getD_set_ne idx b a _ (fun h => hab h.symm),
      getD_set_ne idx a b _ hab,
      List.set_comm _ _ idx (fun h => hab h.symm)]

/-- A slice along an axis below the starting axis of `multiSliceGo` can
be pulled out of it. -/
theorem multiSliceGo_slice_comm (ms gs c : List Nat) :
    ∀ (dm : List (List Nat)) (a' : Nat) (T : Tensor) (b off len : Nat),
      b < a' →
      multiSliceGo ms gs c a' dm (sliceAxis T b off len) =
        sliceAxis (multiSliceGo ms gs c a' dm T) b off len := by
  intro dm
  induction dm with
  | nil => intro a' T b off len _; rfl
  | cons e rest ih =>
      intro a' T b off len hba
      cases e with
      | nil =>
          show multiSliceGo ms gs c (a' + 1) rest (sliceAxis T b off len) = _
          exact ih (a' + 1) T b off len (by omega)
      | cons j r =>
          show multiSliceGo ms gs c (a' + 1) rest
            (sliceAxis (sliceAxis T b off len) a'
              (sliceOffset (gs.getD a' 0) (ms.getD j 1) (c.getD j 0))
              (sliceSize (gs.getD a' 0) (ms.getD j 1) (c.getD j 0))) = _
          rw [sliceAxis_comm T b a' off len
            (sliceOffset (gs.getD a' 0) (ms.getD j 1) (c.getD j 0))
            (sliceSize (gs.getD a' 0) (ms.getD j 1) (c.getD j 0))
            (by omega)]
          exact ih (a' + 1) (sliceAxis T a'
            (sliceOffset (gs.getD a' 0) (ms.getD j 1) (c.getD j 0))
            (sliceSize (gs.getD a' 0) (ms.getD j 1) (c.getD j 0)))
            b off len (by omega)

/-- Adding one new shard assignment at position `p` of the mapping is the
same as slicing the result of the old mapping along tensor axis `a + p`. -/
theorem multiSliceGo_set (ms gs c : List Nat) :
    ∀ (dm : List (List Nat)) (p : Nat) (a : Nat) (T : Tensor) (j : Nat),
      dm.get? p = some [] →
      multiSliceGo ms gs c a (dm.set p [j]) T =
        sliceAxis (multiSliceGo ms gs c a dm T) (a + p)
          (sliceOffset (gs.getD (a + p) 0) (ms.getD j 1) (c.getD j 0))
          (sliceSize (gs.getD (a + p) 0) (ms.getD j 1) (c.getD j 0)) := by
  intro dm
  induction dm with
  | nil => intro p a T j hp; simp at hp
  | cons e rest ih =>
      intro p a T j hp
      cases p with
      | zero =>
          have he : e = [] := by simpa using hp
          subst he
          show multiSliceGo ms gs c (a + 1) rest
            (sliceAxis T a
              (sliceOffset (gs.getD a 0) (ms.getD j 1) (c.getD j 0))
              (sliceSize (gs.getD a 0) (ms.getD j 1) (c.getD j 0))) = _
          rw [multiSliceGo_slice_comm ms gs c rest (a + 1) T a
            (sliceOffset (gs.getD a 0) (ms.getD j 1) (c.getD j 0))
            (sliceSize (gs.getD a 0) (ms.getD j 1) (c.getD j 0))
            (by omega)]
          rfl
      | succ q =>
          have hq : rest.get? q = some [] := by simpa using hp
          show multiSliceGo ms gs c (a + 1) (rest.set q [j])
            (applyEntry ms gs c a e T) = _
          rw [ih q (a + 1) (applyEntry ms gs c a e T) j hq]
          have harr : a + 1 + q = a + (q + 1) := by omega
          rw [harr]
          rfl

/-- `multiSliceGo` respects extensional tensor equality. -/
theorem multiSliceGo_congr (ms gs c : List Nat) :
    ∀ (dm : List (List Nat)) (a : Nat) (T U : Tensor),
      tensorEq T U →
      T.shape.length = gs.length →
      (∀ b, a ≤ b → b < gs.length → T.shape.getD b 0 = gs.getD b 0) →
      a + dm.length ≤ gs.length →
      (∀ p j r, dm.get? p = some (j :: r) → c.getD j 0 < ms.getD j 1) →
      tensorEq (multiSliceGo ms gs c a dm T)
        (multiSliceGo ms gs c a dm U) := by
  intro dm
  induction dm with
  | nil => intro a T U hTU _ _ _ _; exact hTU
  | cons e rest ih =>
      intro a T U hTU hlen hagree hbound hcoord
      show tensorEq (multiSliceGo ms gs c (a + 1) rest
        (applyEntry ms gs c a e T)) _
      cases e with
      | nil =>
          exact ih (a + 1) T U hTU hlen
            (fun b hb1 hb2 => hagree b (by omega) hb2)
            (by simp only [List.length_cons] at hbound; omega)
            (fun p j r hp => hcoord (p + 1) j r (by simpa using hp))
      | cons j r =>
          have ha : a < gs.length := by
            simp only [List.length_cons] at hbound; omega
          have haT : a < T.shape.length := by omega
          have hTa : T.shape.getD a 0 = gs.getD a 0 :=
            hagree a (by omega) ha
          have hcj : c.getD j 0 < ms.getD j 1 := hcoord 0 j r rfl
          have hbnd : sliceOffset (gs.getD a 0) (ms.getD j 1) (c.getD j 0) +
              sliceSize (gs.getD a 0) (ms.getD j 1) (c.getD j 0) ≤
              T.shape.getD a 0 := by
            rw [hTa]
            exact sliceOffset_add_size_le _ _ _ hcj
          have hstep := sliceAxis_congr hTU a
            (sliceOffset (gs.getD a 0) (ms.getD j 1) (c.getD j 0))
            (sliceSize (gs.getD a 0) (ms.getD j 1) (c.getD j 0)) haT hbnd
          refine ih (a + 1) _ _ hstep ?_ ?_ ?_ ?_
          · show (T.shape.set a _).length = gs.length
            rw [List.length_set]
            exact hlen
          · intro b hb1 hb2
            show (T.shape.set a _).getD b 0 = gs.getD b 0
            rw [getD_set_ne _ a b _ (by omega)]
            exact hagree b (by omega) hb2
          · simp only [List.length_cons] at hbound
            show a + 1 + rest.length ≤ gs.length
            omega
          · exact fun p j' r' hp => hcoord (p + 1) j' r' (by simpa using hp)

end Reshard

namespace Reshard

/-- Within bounds, `getD` does not depend on the default. -/
theorem getD_irrel (l : List Nat) (n d d' : Nat) (h : n < l.length) :
    l.getD n d = l.getD n d' := by
  rw [List.getD_eq_getElem l d h, List.getD_eq_getElem l d' h]

/-- `nodupB` agrees with `List.Nodup`. -/
theorem nodupB_iff (l : List Nat) : nodupB l = true ↔ l.Nodup := by
  induction l with
  | nil => simp [nodupB]
  | cons x xs ih =>
      have hc : xs.contains x = true ↔ x ∈ xs := by simp
      simp only [nodupB, Bool.and_eq_true, Bool.not_eq_true', ih,
        List.nodup_cons]
      constructor
      · rintro ⟨h1, h2⟩
        refine ⟨fun hm => ?_, h2⟩
        rw [hc.mpr hm] at h1
        cases h1
      · rintro ⟨h1, h2⟩
        refine ⟨?_, h2⟩
        cases hx : xs.contains x
        · rfl
        · exact absurd (hc.mp hx) h1

/-- Members of a mapping entry are in the mapping's reference list. -/
theorem mem_mappingRefs :
    ∀ (dm : List (List Nat)) (p : Nat) (e : List Nat),
      dm.get? p = some e → ∀ x ∈ e, x ∈ mappingRefs dm := by
  intro dm
  induction dm with
  | nil => intro p e hp; simp at hp
  | cons e0 rest ih =>
      intro p e hp x hx
      show x ∈ e0 ++ mappingRefs rest
      cases p with
      | zero =>
          have he : e0 = e := by simpa using hp
          subst he
          exact List.mem_append.mpr (Or.inl hx)
      | succ q =>
          exact List.mem_append.mpr
            (Or.inr (ih q e (by simpa using hp) x hx))

/-- Replacing an unsharded entry by a single-shard entry inserts exactly
that mesh dimension into the reference list. -/
theorem mappingRefs_set :
    ∀ (dm : List (List Nat)) (a j : Nat), dm.get? a = some [] →
      ∃ xs ys, mappingRefs dm = xs ++ ys ∧
        mappingRefs (dm.set a [j]) = xs ++ j :: ys := by
  intro dm
  induction dm with
  | nil => intro a j hp; simp at hp
  | cons e rest ih =>
      intro a j hp
      cases a with
      | zero =>
          have he : e = [] := by simpa using hp
          subst he
          exact ⟨[], mappingRefs rest, rfl, rfl⟩
      | succ q =>
          obtain ⟨xs, ys, h1, h2⟩ := ih q j (by simpa using hp)
          refine ⟨e ++ xs, ys, ?_, ?_⟩
          · show e ++ mappingRefs rest = (e ++ xs) ++ ys
            rw [h1, List.append_assoc]
          · show e ++ mappingRefs (rest.set q [j]) = (e ++ xs) ++ j :: ys
            rw [h2, List.append_assoc]

/-- A mesh dimension newly sharded onto cannot already be referenced, by
the no-duplicate-reference invariant of the target descriptor. -/
theorem new_shard_not_in_refs {dm : List (List Nat)} {a j : Nat}
    (ha : dm.get? a = some [])
    (hnd : nodupB (mappingRefs (dm.set a [j])) = true) :
    j ∉ mappingRefs dm := by
  obtain ⟨xs, ys, h1, h2⟩ := mappingRefs_set dm a j ha
  rw [h2, nodupB_iff, List.nodup_append] at hnd
  obtain ⟨hxs, hys, hdisj⟩ := hnd
  rw [h1]
  intro hmem
  rcases List.mem_append.mp hmem with hx | hy
  · exact hdisj hx (List.mem_cons_self j ys)
  · rw [List.nodup_cons] at hys
    exact hys.1 hy

/-- The characterization of `oneNewShard`: the target mapping is the
source mapping with one unsharded entry replaced by a single shard, and
`findNewShard` locates it. -/
theorem oneNewShard_spec :
    ∀ {s t : List (List Nat)}, oneNewShard s t = true →
      ∃ a j, findNewShard s t = some (a, j) ∧ a < s.length ∧
        s.get? a = some [] ∧ t = s.set a [j] := by
  intro s
  induction s with
  | nil =>
      intro t h
      cases t <;> simp [oneNewShard] at h
  | cons s0 ss ih =>
      intro t h
      cases t with
      | nil => simp [oneNewShard] at h
      | cons t0 ts =>
          simp only [oneNewShard] at h
          by_cases hst : s0 = t0
          · rw [if_pos hst] at h
            obtain ⟨a, j, hf, hlt, hget, hset⟩ := ih h
            refine ⟨a + 1, j, ?_, by simp; omega, by simpa using hget, ?_⟩
            · simp only [findNewShard]
              rw [if_pos hst, hf]
              rfl
            · show t0 :: ts = s0 :: ss.set a [j]
              rw [← hst, hset]
          · rw [if_neg hst] at h
            simp only [Bool.and_eq_true] at h
            obtain ⟨⟨h1, h2⟩, h3⟩ := h
            have hs0 : s0 = [] := List.isEmpty_iff.mp h1
            obtain ⟨j, hj⟩ := List.length_eq_one.mp (by
              simpa using h2)
            have hss : ss = ts := beq_iff_eq.mp h3
            refine ⟨0, j, ?_, by simp, by simp [hs0], ?_⟩
            · simp only [findNewShard]
              rw [if_neg hst, hs0, hj, ← hss, beq_self_eq_true]
            · show t0 :: ts = [j] :: ss
              rw [hj, ← hss]
  
/-- `oneNewShard` never relates a mapping to itself. -/
theorem oneNewShard_irrefl (s : List (List Nat)) :
    oneNewShard s s = false := by
  induction s with
  | nil => rfl
  | cons e rest ih =>
      simp only [oneNewShard]
      simpa using ih

/-- `oneNewShard` is asymmetric. -/
theorem oneNewShard_asymm {s t : List (List Nat)}
    (h : oneNewShard s t = true) : oneNewShard t s = false := by
  by_contra hc
  have hts : oneNewShard t s = true := by
    revert hc; cases oneNewShard t s <;> simp
  obtain ⟨a, j, _, hlt, hget, hset⟩ := oneNewShard_spec h
  obtain ⟨b, i, _, hlt2, hget2, hset2⟩ := oneNewShard_spec hts
  by_cases hba : b = a
  · subst hba
    rw [hset, List.get?_eq_getElem?, List.getElem?_set_self hlt] at hget2
    cases hget2
  · have h2 : t.get? a = some [j] := by
      rw [hset, List.get?_eq_getElem?, List.getElem?_set_self hlt]
    have h3 : s.get? a = t.get? a := by
      rw [hset2, List.get?_eq_getElem?, List.get?_eq_getElem?,
        List.getElem?_set_ne hba]
    rw [hget, h2] at h3
    simp at h3

/-- The suitability facts shared by the two Partial→Replicated
strategies. -/
theorem suit_facts_pToR {A B : DistAttr}
    (h : is_suitable ReshardFunc.pToR A B = true ∨
      is_suitable ReshardFunc.pToRCrossMesh A B = true) :
    A.partial_dims ≠ [] ∧ B.partial_dims = [] := by
  rcases h with h | h <;>
  · simp only [is_suitable, Bool.and_eq_true] at h
    obtain ⟨⟨⟨⟨⟨h1, h2⟩, h3⟩, h4⟩, h5⟩, h6⟩ := h
    refine ⟨fun hAe => ?_, List.isEmpty_iff.mp h4⟩
    rw [hAe] at h3
    cases h3

/-- The suitability facts shared by the two Replicated→Sharded
strategies. -/
theorem suit_facts_rToS {A B : DistAttr}
    (h : is_suitable ReshardFunc.rToS A B = true ∨
      is_suitable ReshardFunc.rToSCrossMesh A B = true) :
    validAttr A = true ∧ validAttr B = true ∧ A.partial_dims = [] ∧
      B.partial_dims = [] ∧
      oneNewShard A.dims_mapping B.dims_mapping = true ∧
      A.mesh.shape = B.mesh.shape := by
  rcases h with h | h
  · simp only [is_suitable, Bool.and_eq_true] at h
    obtain ⟨⟨⟨⟨⟨h1, h2⟩, h3⟩, h4⟩, h5⟩, h6⟩ := h
    have hm : A.mesh = B.mesh := beq_iff_eq.mp h6
    exact ⟨h1, h2, List.isEmpty_iff.mp h3, List.isEmpty_iff.mp h4, h5,
      by rw [hm]⟩
  · simp only [is_suitable, Bool.and_eq_true] at h
    obtain ⟨⟨⟨⟨⟨h1, h2⟩, h3⟩, h4⟩, h5⟩, h6⟩ := h
    simp only [crossMeshOk, Bool.and_eq_true] at h6
    exact ⟨h1, h2, List.isEmpty_iff.mp h3, List.isEmpty_iff.mp h4, h5,
      beq_iff_eq.mp h6.2⟩

/-- The suitability facts shared by the two Sharded→Replicated
strategies. -/
theorem suit_facts_sToR {A B : DistAttr}
    (h : is_suitable ReshardFunc.sToR A B = true ∨
      is_suitable ReshardFunc.sToRCrossMesh A B = true) :
    validAttr A = true ∧ validAttr B = true ∧ A.partial_dims = [] ∧
      B.partial_dims = [] ∧
      oneNewShard B.dims_mapping A.dims_mapping = true ∧
      A.mesh.shape = B.mesh.shape := by
  rcases h with h | h
  · simp only [is_suitable, Bool.and_eq_true] at h
    obtain ⟨⟨⟨⟨⟨h1, h2⟩, h3⟩, h4⟩, h5⟩, h6⟩ := h
    have hm : A.mesh = B.mesh := beq_iff_eq.mp h6
    exact ⟨h1, h2, List.isEmpty_iff.mp h3, List.isEmpty_iff.mp h4, h5,
      by rw [hm]⟩
  · simp only [is_suitable, Bool.and_eq_true] at h
    obtain ⟨⟨⟨⟨⟨h1, h2⟩, h3⟩, h4⟩, h5⟩, h6⟩ := h
    simp only [crossMeshOk, Bool.and_eq_true] at h6
    exact ⟨h1, h2, List.isEmpty_iff.mp h3, List.isEmpty_iff.mp h4, h5,
      beq_iff_eq.mp h6.2⟩

/-- The suitability facts of the Same-Status strategy. -/
theorem suit_facts_same {A B : DistAttr}
    (h : is_suitable ReshardFunc.sameStatus A B = true) :
    A.dims_mapping = B.dims_mapping ∧ A.partial_dims = B.partial_dims := by
  simp only [is_suitable, Bool.and_eq_true] at h
  obtain ⟨⟨⟨⟨h1, h2⟩, h3⟩, h4⟩, h5⟩ := h
  exact ⟨beq_iff_eq.mp h3, beq_iff_eq.mp h4⟩

/-- `find` succeeds only with a suitable strategy. -/
theorem find_ok_suitable :
    ∀ {reg : List ReshardFunc} {src tgt : DistAttr} {shape : List Nat}
      {f : ReshardFunc}, find reg src tgt shape = Except.ok f →
      is_suitable f src tgt = true := by
  intro reg
  induction reg with
  | nil => intro src tgt shape f h; cases h
  | cons g rest ih =>
      intro src tgt shape f h
      simp only [find] at h
      by_cases hg : is_suitable g src tgt
      · rw [if_pos hg] at h
        cases h
        exact hg
      · rw [if_neg hg] at h
        exact ih h

/-- A successful `reshard` resolves a strategy and executes it. -/
theorem reshard_ok {t : DistTensor} {tgt : DistAttr} {t' : DistTensor}
    (h : reshard t tgt = Except.ok t') :
    ∃ f, find startupRegistry t.dist_attr tgt t.global_shape =
        Except.ok f ∧ execute f t tgt = Except.ok t' := by
  unfold reshard at h
  cases hf : find startupRegistry t.dist_attr tgt t.global_shape with
  | error e => rw [hf] at h; cases h
  | ok f => rw [hf] at h; exact ⟨f, rfl, h⟩

/-- The result of a successful Replicated→Sharded execution. -/
theorem execute_rToS_ok {f : ReshardFunc}
    (hf : f = ReshardFunc.rToS ∨ f = ReshardFunc.rToSCrossMesh)
    {t : DistTensor} {tgt : DistAttr} {t' : DistTensor}
    (h : execute f t tgt = Except.ok t') :
    ∃ a j, findNewShard t.dist_attr.dims_mapping tgt.dims_mapping =
        some (a, j) ∧
      t' = { dist_attr := tgt,
             global_shape := t.global_shape,
             local_bufs := fun c =>
               sliceAxis (t.local_bufs c) a
                 (sliceOffset (t.global_shape.getD a 0)
                   (tgt.mesh.shape.getD j 1) (c.getD j 0))
                 (sliceSize (t.global_shape.getD a 0)
                   (tgt.mesh.shape.getD j 1) (c.getD j 0)) } := by
  rcases hf with rfl | rfl <;>
  · simp only [execute] at h
    cases hn : findNewShard t.dist_attr.dims_mapping tgt.dims_mapping with
    | none => rw [hn] at h; cases h
    | some pr =>
        obtain ⟨a, j⟩ := pr
        cases hs : rToSSplit (t.global_shape.getD a 0)
            (tgt.mesh.shape.getD j 1) with
        | error e =>
            simp only [hn, hs] at h
            cases h
        | ok sz =>
            simp only [hn, hs] at h
            cases h
            exact ⟨a, j, rfl, rfl⟩

/-- The result of a successful Sharded→Replicated execution. -/
theorem execute_sToR_ok {f : ReshardFunc}
    (hf : f = ReshardFunc.sToR ∨ f = ReshardFunc.sToRCrossMesh)
    {t : DistTensor} {tgt : DistAttr} {t' : DistTensor}
    (h : execute f t tgt = Except.ok t') :
    ∃ a j, findNewShard tgt.dims_mapping t.dist_attr.dims_mapping =
        some (a, j) ∧
      t' = { dist_attr := tgt,
             global_shape := t.global_shape,
             local_bufs := fun c =>
               concatAll a
                 ((List.range (t.dist_attr.mesh.shape.getD j 1)).map
                   (fun i => t.local_bufs (c.set j i))) } := by
  rcases hf with rfl | rfl <;>
  · simp only [execute] at h
    cases hn : findNewShard tgt.dims_mapping t.dist_attr.dims_mapping with
    | none => rw [hn] at h; cases h
    | some pr =>
        obtain ⟨a, j⟩ := pr
        rw [hn] at h
        cases h
        exact ⟨a, j, rfl, rfl⟩

/-- Fields of any successfully executed strategy: the descriptor becomes
the target and the global shape is unchanged. -/
theorem execute_ok_fields {f : ReshardFunc} {t : DistTensor}
    {tgt : DistAttr} {t' : DistTensor}
    (h : execute f t tgt = Except.ok t') :
    t'.dist_attr = tgt ∧ t'.global_shape = t.global_shape := by
  cases f with
  | sameStatus =>
      simp only [execute] at h
      cases h
      exact ⟨rfl, rfl⟩
  | pToR =>
      simp only [execute] at h
      cases h
      exact ⟨rfl, rfl⟩
  | pToRCrossMesh =>
      simp only [execute] at h
      cases h
      exact ⟨rfl, rfl⟩
  | rToS =>
      obtain ⟨a, j, _, ht'⟩ := execute_rToS_ok (Or.inl rfl) h
      rw [ht']
      exact ⟨rfl, rfl⟩
  | rToSCrossMesh =>
      obtain ⟨a, j, _, ht'⟩ := execute_rToS_ok (Or.inr rfl) h
      rw [ht']
      exact ⟨rfl, rfl⟩
  | sToR =>
      obtain ⟨a, j, _, ht'⟩ := execute_sToR_ok (Or.inl rfl) h
      rw [ht']
      exact ⟨rfl, rfl⟩
  | sToRCrossMesh =>
      obtain ⟨a, j, _, ht'⟩ := execute_sToR_ok (Or.inr rfl) h
      rw [ht']
      exact ⟨rfl, rfl⟩

end Reshard

namespace Reshard

/-- Mutual suitability characterization: when one registered strategy
accepts (A, B) and another accepts (B, A), the pair is Same-Status both
ways, or a Replicated→Sharded / Sharded→Replicated pair. -/
theorem mutual_pairs {A B : DistAttr} {f1 f2 : ReshardFunc}
    (h1 : is_suitable f1 A B = true)
    (h2 : is_suitable f2 B A = true) :
    (f1 = ReshardFunc.sameStatus ∧ f2 = ReshardFunc.sameStatus) ∨
    ((f1 = ReshardFunc.rToS ∨ f1 = ReshardFunc.rToSCrossMesh) ∧
      (f2 = ReshardFunc.sToR ∨ f2 = ReshardFunc.sToRCrossMesh)) ∨
    ((f1 = ReshardFunc.sToR ∨ f1 = ReshardFunc.sToRCrossMesh) ∧
      (f2 = ReshardFunc.rToS ∨ f2 = ReshardFunc.rToSCrossMesh)) := by
  cases f1 with
  | pToR =>
      cases f2 with
      | pToR =>
          exact absurd (suit_facts_pToR (Or.inl h1)).2 (suit_facts_pToR (Or.inl h2)).1
      | pToRCrossMesh =>
          exact absurd (suit_facts_pToR (Or.inl h1)).2 (suit_facts_pToR (Or.inr h2)).1
      | rToS =>
          exact absurd (suit_facts_rToS (Or.inl h2)).2.2.2.1 (suit_facts_pToR (Or.inl h1)).1
      | rToSCrossMesh =>
          exact absurd (suit_facts_rToS (Or.inr h2)).2.2.2.1 (suit_facts_pToR (Or.inl h1)).1
      | sameStatus =>
          exact absurd ((suit_facts_same h2).2.symm.trans (suit_facts_pToR (Or.inl h1)).2) (suit_facts_pToR (Or.inl h1)).1
      | sToR =>
          exact absurd (suit_facts_sToR (Or.inl h2)).2.2.2.1 (suit_facts_pToR (Or.inl h1)).1
      | sToRCrossMesh =>
          exact absurd (suit_facts_sToR (Or.inr h2)).2.2.2.1 (suit_facts_pToR (Or.inl h1)).1
  | pToRCrossMesh =>
      cases f2 with
      | pToR =>
          exact absurd (suit_facts_pToR (Or.inr h1)).2 (suit_facts_pToR (Or.inl h2)).1
      | pToRCrossMesh =>
          exact absurd (suit_facts_pToR (Or.inr h1)).2 (suit_facts_pToR (Or.inr h2)).1
      | rToS =>
          exact absurd (suit_facts_rToS (Or.inl h2)).2.2.2.1 (suit_facts_pToR (Or.inr h1)).1
      | rToSCrossMesh =>
          exact absurd (suit_facts_rToS (Or.inr h2)).2.2.2.1 (suit_facts_pToR (Or.inr h1)).1
      | sameStatus =>
          exact absurd ((suit_facts_same h2).2.symm.trans (suit_facts_pToR (Or.inr h1)).2) (suit_facts_pToR (Or.inr h1)).1
      | sToR =>
          exact absurd (suit_facts_sToR (Or.inl h2)).2.2.2.1 (suit_facts_pToR (Or.inr h1)).1
      | sToRCrossMesh =>
          exact absurd (suit_facts_sToR (Or.inr h2)).2.2.2.1 (suit_facts_pToR (Or.inr h1)).1
  | rToS =>
      cases f2 with
      | pToR =>
          exact absurd (suit_facts_rToS (Or.inl h1)).2.2.2.1 (suit_facts_pToR (Or.inl h2)).1
      | pToRCrossMesh =>
          exact absurd (suit_facts_rToS (Or.inl h1)).2.2.2.1 (suit_facts_pToR (Or.inr h2)).1
      | rToS =>
          exact absurd ((oneNewShard_asymm (suit_facts_rToS (Or.inl h1)).2.2.2.2.1).symm.trans
            (suit_facts_rToS (Or.inl h2)).2.2.2.2.1) Bool.false_ne_true
      | rToSCrossMesh =>
          exact absurd ((oneNewShard_asymm (suit_facts_rToS (Or.inl h1)).2.2.2.2.1).symm.trans
            (suit_facts_rToS (Or.inr h2)).2.2.2.2.1) Bool.false_ne_true
      | sameStatus =>
          have h0 := (suit_facts_rToS (Or.inl h1)).2.2.2.2.1
          rw [(suit_facts_same h2).1] at h0
          exact absurd ((oneNewShard_irrefl _).symm.trans h0)
            Bool.false_ne_true
      | sToR =>
          exact Or.inr (Or.inl ⟨Or.inl rfl, Or.inl rfl⟩)
      | sToRCrossMesh =>
          exact Or.inr (Or.inl ⟨Or.inl rfl, Or.inr rfl⟩)
  | rToSCrossMesh =>
      cases f2 with
      | pToR =>
          exact absurd (suit_facts_rToS (Or.inr h1)).2.2.2.1 (suit_facts_pToR (Or.inl h2)).1
      | pToRCrossMesh =>
          exact absurd (suit_facts_rToS (Or.inr h1)).2.2.2.1 (suit_facts_pToR (Or.inr h2)).1
      | rToS =>
          exact absurd ((oneNewShard_asymm (suit_facts_rToS (Or.inr h1)).2.2.2.2.1).symm.trans
            (suit_facts_rToS (Or.inl h2)).2.2.2.2.1) Bool.false_ne_true
      | rToSCrossMesh =>
          exact absurd ((oneNewShard_asymm (suit_facts_rToS (Or.inr h1)).2.2.2.2.1).symm.trans
            (suit_facts_rToS (Or.inr h2)).2.2.2.2.1) Bool.false_ne_true
      | sameStatus =>
          have h0 := (suit_facts_rToS (Or.inr h1)).2.2.2.2.1
          rw [(suit_facts_same h2).1] at h0
          exact absurd ((oneNewShard_irrefl _).symm.trans h0)
            Bool.false_ne_true
      | sToR =>
          exact Or.inr (Or.inl ⟨Or.inr rfl, Or.inl rfl⟩)
      | sToRCrossMesh =>
          exact Or.inr (Or.inl ⟨Or.inr rfl, Or.inr rfl⟩)
  | sameStatus =>
      cases f2 with
      | pToR =>
          exact absurd ((suit_facts_same h1).2.symm.trans (suit_facts_pToR (Or.inl h2)).2) (suit_facts_pToR (Or.inl h2)).1
      | pToRCrossMesh =>
          exact absurd ((suit_facts_same h1).2.symm.trans (suit_facts_pToR (Or.inr h2)).2) (suit_facts_pToR (Or.inr h2)).1
      | rToS =>
          have h0 := (suit_facts_rToS (Or.inl h2)).2.2.2.2.1
          rw [(suit_facts_same h1).1] at h0
          exact absurd ((oneNewShard_irrefl _).symm.trans h0)
            Bool.false_ne_true
      | rToSCrossMesh =>
          have h0 := (suit_facts_rToS (Or.inr h2)).2.2.2.2.1
          rw [(suit_facts_same h1).1] at h0
          exact absurd ((oneNewShard_irrefl _).symm.trans h0)
            Bool.false_ne_true
      | sameStatus =>
          exact Or.inl ⟨rfl, rfl⟩
      | sToR =>
          have h0 := (suit_facts_sToR (Or.inl h2)).2.2.2.2.1
          rw [(suit_facts_same h1).1] at h0
          exact absurd ((oneNewShard_irrefl _).symm.trans h0)
            Bool.false_ne_true
      | sToRCrossMesh =>
          have h0 := (suit_facts_sToR (Or.inr h2)).2.2.2.2.1
          rw [(suit_facts_same h1).1] at h0
          exact absurd ((oneNewShard_irrefl _).symm.trans h0)
            Bool.false_ne_true
  | sToR =>
      cases f2 with
      | pToR =>
          exact absurd (suit_facts_sToR (Or.inl h1)).2.2.2.1 (suit_facts_pToR (Or.inl h2)).1
      | pToRCrossMesh =>
          exact absurd (suit_facts_sToR (Or.inl h1)).2.2.2.1 (suit_facts_pToR (Or.inr h2)).1
      | rToS =>
          exact Or.inr (Or.inr ⟨Or.inl rfl, Or.inl rfl⟩)
      | rToSCrossMesh =>
          exact Or.inr (Or.inr ⟨Or.inl rfl, Or.inr rfl⟩)
      | sameStatus =>
          have h0 := (suit_facts_sToR (Or.inl h1)).2.2.2.2.1
          rw [(suit_facts_same h2).1] at h0
          exact absurd ((oneNewShard_irrefl _).symm.trans h0)
            Bool.false_ne_true
      | sToR =>
          exact absurd ((oneNewShard_asymm (suit_facts_sToR (Or.inl h1)).2.2.2.2.1).symm.trans
            (suit_facts_sToR (Or.inl h2)).2.2.2.2.1) Bool.false_ne_true
      | sToRCrossMesh =>
          exact absurd ((oneNewShard_asymm (suit_facts_sToR (Or.inl h1)).2.2.2.2.1).symm.trans
            (suit_facts_sToR (Or.inr h2)).2.2.2.2.1) Bool.false_ne_true
  | sToRCrossMesh =>
      cases f2 with
      | pToR =>
          exact absurd (suit_facts_sToR (Or.inr h1)).2.2.2.1 (suit_facts_pToR (Or.inl h2)).1
      | pToRCrossMesh =>
          exact absurd (suit_facts_sToR (Or.inr h1)).2.2.2.1 (suit_facts_pToR (Or.inr h2)).1
      | rToS =>
          exact Or.inr (Or.inr ⟨Or.inr rfl, Or.inl rfl⟩)
      | rToSCrossMesh =>
          exact Or.inr (Or.inr ⟨Or.inr rfl, Or.inr rfl⟩)
      | sameStatus =>
          have h0 := (suit_facts_sToR (Or.inr h1)).2.2.2.2.1
          rw [(suit_facts_same h2).1] at h0
          exact absurd ((oneNewShard_irrefl _).symm.trans h0)
            Bool.false_ne_true
      | sToR =>
          exact absurd ((oneNewShard_asymm (suit_facts_sToR (Or.inr h1)).2.2.2.2.1).symm.trans
            (suit_facts_sToR (Or.inl h2)).2.2.2.2.1) Bool.false_ne_true
      | sToRCrossMesh =>
          exact absurd ((oneNewShard_asymm (suit_facts_sToR (Or.inr h1)).2.2.2.2.1).symm.trans
            (suit_facts_sToR (Or.inr h2)).2.2.2.2.1) Bool.false_ne_true

end Reshard

namespace Reshard

/-- Positive mesh sizes, read through `getD`. -/
theorem mesh_pos_getD {l : List Nat}
    (h : l.all (fun d => 0 < d) = true) {j : Nat} (hj : j < l.length) :
    0 < l.getD j 1 := by
  rw [List.getD_eq_getElem l 1 hj]
  have h0 := List.all_eq_true.mp h _ (List.getElem_mem hj)
  simpa using h0

/-- The components of `validAttr` used below. -/
theorem validAttr_parts {A : DistAttr} (h : validAttr A = true) :
    A.dims_mapping.all (fun e => e.length ≤ 1) = true ∧
    nodupB (mappingRefs A.dims_mapping) = true ∧
    (mappingRefs A.dims_mapping).all
      (fun j => j < A.mesh.shape.length) = true := by
  simp only [validAttr, Bool.and_eq_true] at h
  exact ⟨h.1.1.1.1.1, h.1.1.1.1.2, h.1.1.1.2⟩

/-- Replacing one coordinate of a valid mesh coordinate by a valid value
keeps it valid. -/
theorem validIdx_set {ms c : List Nat} (hv : validIdx ms c = true)
    {j v : Nat} (hj : j < ms.length) (hvv : v < ms.getD j 0) :
    validIdx ms (c.set j v) = true := by
  rw [validIdx_iff] at hv ⊢
  obtain ⟨hlen, hcomp⟩ := hv
  refine ⟨by rw [List.length_set]; exact hlen, fun p hp => ?_⟩
  by_cases hpj : p = j
  · subst hpj
    rw [getD_set_self c p v (by omega)]
    exact hvv
  · rw [getD_set_ne c j p v (fun hh => hpj hh.symm)]
    exact hcomp p hp

/-- Replicated→Sharded along one new axis followed by the matching
Sharded→Replicated gather yields buffers that again represent the
original logical tensor. -/
theorem rs_round_represents
    (attrA B : DistAttr) (gs : List Nat) (bufs : List Nat → Tensor)
    (F : Tensor) (a j k : Nat)
    (hk : k = B.mesh.shape.getD j 1)
    (hrep : represents ⟨attrA, gs, bufs⟩ F)
    (hvB : validAttr B = true)
    (hpA : attrA.partial_dims = [])
    (hget : attrA.dims_mapping.get? a = some [])
    (hseta : B.dims_mapping = attrA.dims_mapping.set a [j])
    (hmesh : attrA.mesh.shape = B.mesh.shape) :
    represents
      ⟨attrA, gs, fun c =>
        concatAll a ((List.range k).map
          (fun i => sliceAxis (bufs (c.set j i)) a
            (sliceOffset (gs.getD a 0) k ((c.set j i).getD j 0))
            (sliceSize (gs.getD a 0) k ((c.set j i).getD j 0))))⟩ F := by
  obtain ⟨hvA, hpos, hFs, hdml, G, hG⟩ := hrep
  have hdml2 : attrA.dims_mapping.length = gs.length := hdml
  refine ⟨hvA, hpos, hFs, hdml, fun _ => F, fun c hc => ?_⟩
  refine ⟨hFs, ?_, ?_⟩
  · show tensorEq F (sumTensors ((groupCoords attrA.mesh.shape
      attrA.partial_dims c).map (fun _ => F)))
    rw [hpA]
    exact tensorEq_refl F
  · have hadm : a < attrA.dims_mapping.length :=
      (List.get?_eq_some.mp hget).1
    have hags : a < gs.length := by omega
    have hjB : j ∈ mappingRefs B.dims_mapping := by
      rw [hseta]
      refine mem_mappingRefs _ a [j] ?_ j (by simp)
      rw [List.get?_eq_getElem?, List.getElem?_set_self hadm]
    have hjb : j < B.mesh.shape.length := by
      have h3 := (validAttr_parts hvB).2.2
      have h4 := List.all_eq_true.mp h3 _ hjB
      simpa using h4
    have hjms : j < attrA.mesh.shape.length := by rw [hmesh]; exact hjb
    have hkpos : 0 < k := by
      rw [hk, ← hmesh]
      exact mesh_pos_getD hpos hjms
    have hnotin : j ∉ mappingRefs attrA.dims_mapping := by
      refine new_shard_not_in_refs hget ?_
      rw [← hseta]
      exact (validAttr_parts hvB).2.1
    have hclen : c.length = attrA.mesh.shape.length :=
      ((validIdx_iff attrA.mesh.shape c).mp hc).1
    have hcset : ∀ v, v < k → validIdx attrA.mesh.shape (c.set j v) = true := by
      intro v hv
      refine validIdx_set hc hjms ?_
      rw [getD_irrel attrA.mesh.shape j 0 1 hjms, hmesh, ← hk]
      exact hv
    have hMlen : (multiSliceGo attrA.mesh.shape gs c 0
        attrA.dims_mapping F).shape.length = gs.length := by
      rw [multiSliceGo_length, hFs]
    have hMa : (multiSliceGo attrA.mesh.shape gs c 0
        attrA.dims_mapping F).shape.getD a 0 = gs.getD a 0 := by
      rw [multiSliceGo_shape_getD attrA.mesh.shape gs c
        attrA.dims_mapping 0 F a ?_, hFs]
      intro p e hp hne h0
      have hpa : p = a := by omega
      subst hpa
      rw [hget] at hp
      cases hp
      exact hne rfl
    have haM : a < (multiSliceGo attrA.mesh.shape gs c 0
        attrA.dims_mapping F).shape.length := by omega
    show tensorEq _ (multiSliceGo attrA.mesh.shape gs c 0
      attrA.dims_mapping F)
    refine concat_slices _ a (gs.getD a 0) k haM hMa hkpos _
      (by simp) ?_
    intro q U hU
    have hqk : q < k := by
      have h5 := (List.get?_eq_some.mp hU).1
      simpa using h5
    have hps : ((List.range k).map
        (fun i => sliceAxis (bufs (c.set j i)) a
          (sliceOffset (gs.getD a 0) k ((c.set j i).getD j 0))
          (sliceSize (gs.getD a 0) k ((c.set j i).getD j 0)))).get? q =
        some (sliceAxis (bufs (c.set j q)) a
          (sliceOffset (gs.getD a 0) k ((c.set j q).getD j 0))
          (sliceSize (gs.getD a 0) k ((c.set j q).getD j 0))) := by
      rw [List.get?_eq_getElem?, List.getElem?_map, List.getElem?_range hqk]
      rfl
    rw [hU] at hps
    cases hps
    have hcq : (c.set j q).getD j 0 = q :=
      getD_set_self c j q (by omega)
    rw [hcq]
    have hbuf : tensorEq (bufs (c.set j q))
        (multiSliceGo attrA.mesh.shape gs (c.set j q) 0
          attrA.dims_mapping (G (c.set j q))) :=
      (hG (c.set j q) (hcset q hqk)).2.2
    have hagree : multiSliceGo attrA.mesh.shape gs (c.set j q) 0
        attrA.dims_mapping (G (c.set j q)) =
        multiSliceGo attrA.mesh.shape gs c 0
          attrA.dims_mapping (G (c.set j q)) := by
      refine multiSliceGo_coord_agree attrA.mesh.shape gs
        attrA.dims_mapping 0 (G (c.set j q)) _ _ ?_
      intro p j' r hp
      have hj'mem : j' ∈ mappingRefs attrA.dims_mapping :=
        mem_mappingRefs _ p _ hp j' (by simp)
      have hj'j : j ≠ j' := fun h => hnotin (h ▸ hj'mem)
      exact getD_set_ne c j j' q hj'j
    rw [hagree] at hbuf
    have hGF : tensorEq (G (c.set j q)) F := by
      have h2 := (hG (c.set j q) (hcset q hqk)).2.1
      rw [hpA] at h2
      exact tensorEq_symm h2
    have hGs : (G (c.set j q)).shape = gs := (hG (c.set j q) (hcset q hqk)).1
    have hcong : tensorEq
        (multiSliceGo attrA.mesh.shape gs c 0
          attrA.dims_mapping (G (c.set j q)))
        (multiSliceGo attrA.mesh.shape gs c 0 attrA.dims_mapping F) := by
      refine multiSliceGo_congr attrA.mesh.shape gs c
        attrA.dims_mapping 0 _ _ hGF (by rw [hGs]) ?_ (by omega) ?_
      · intro b hb1 hb2
        rw [hGs]
      · intro p j' r' hp
        have hj'mem := mem_mappingRefs _ p _ hp j' (by simp)
        have hj'lt : j' < attrA.mesh.shape.length := by
          have h3 := (validAttr_parts hvA).2.2
          have h4 := List.all_eq_true.mp h3 _ hj'mem
          simpa using h4
        have h5 := ((validIdx_iff attrA.mesh.shape c).mp hc).2 j' hj'lt
        rw [getD_irrel attrA.mesh.shape j' 1 0 hj'lt]
        exact h5
    have hcore := tensorEq_trans hbuf hcong
    refine sliceAxis_congr hcore a (sliceOffset (gs.getD a 0) k q)
      (sliceSize (gs.getD a 0) k q) ?_ ?_
    · rw [hcore.1]
      exact haM
    · rw [hcore.1, hMa]
      exact sliceOffset_add_size_le _ _ _ hqk

end Reshard

namespace Reshard

/-- Sharded→Replicated gather along the sharded axis followed by the
matching Replicated→Sharded split yields buffers that again represent
the original logical tensor. -/
theorem sr_round_represents
    (attrA B : DistAttr) (gs : List Nat) (bufs : List Nat → Tensor)
    (F : Tensor) (a j k : Nat)
    (hk : k = attrA.mesh.shape.getD j 1)
    (hrep : represents ⟨attrA, gs, bufs⟩ F)
    (hpA : attrA.partial_dims = [])
    (hgetB : B.dims_mapping.get? a = some [])
    (hseta : attrA.dims_mapping = B.dims_mapping.set a [j]) :
    represents
      ⟨attrA, gs, fun c =>
        sliceAxis (concatAll a ((List.range k).map
            (fun i => bufs (c.set j i)))) a
          (sliceOffset (gs.getD a 0) k (c.getD j 0))
          (sliceSize (gs.getD a 0) k (c.getD j 0))⟩ F := by
  obtain ⟨hvA, hpos, hFs, hdml, G, hG⟩ := hrep
  have hFs2 : F.shape = gs := hFs
  have hdml2 : attrA.dims_mapping.length = gs.length := hdml
  refine ⟨hvA, hpos, hFs, hdml, fun _ => F, fun c hc => ?_⟩
  refine ⟨hFs, ?_, ?_⟩
  · show tensorEq F (sumTensors ((groupCoords attrA.mesh.shape
      attrA.partial_dims c).map (fun _ => F)))
    rw [hpA]
    exact tensorEq_refl F
  · have haB : a < B.dims_mapping.length := (List.get?_eq_some.mp hgetB).1
    have hadm : a < attrA.dims_mapping.length := by
      rw [hseta, List.length_set]
      exact haB
    have hags : a < gs.length := by omega
    have hBlen : B.dims_mapping.length = gs.length := by
      have h0 : (B.dims_mapping.set a [j]).length = B.dims_mapping.length :=
        List.length_set _ _ _
      rw [← hseta] at h0
      omega
    have hjA : j ∈ mappingRefs attrA.dims_mapping := by
      rw [hseta]
      refine mem_mappingRefs _ a [j] ?_ j (by simp)
      rw [List.get?_eq_getElem?, List.getElem?_set_self haB]
    have hjms : j < attrA.mesh.shape.length := by
      have h3 := (validAttr_parts hvA).2.2
      have h4 := List.all_eq_true.mp h3 _ hjA
      simpa using h4
    have hkpos : 0 < k := by
      rw [hk]
      exact mesh_pos_getD hpos hjms
    have hnotinB : j ∉ mappingRefs B.dims_mapping := by
      refine new_shard_not_in_refs hgetB ?_
      rw [← hseta]
      exact (validAttr_parts hvA).2.1
    have hsub : ∀ x, x ∈ mappingRefs B.dims_mapping →
        x ∈ mappingRefs attrA.dims_mapping := by
      obtain ⟨xs, ys, h1, h2⟩ := mappingRefs_set B.dims_mapping a j hgetB
      intro x hx
      rw [hseta, h2]
      rw [h1] at hx
      rcases List.mem_append.mp hx with h | h
      · exact List.mem_append.mpr (Or.inl h)
      · exact List.mem_append.mpr (Or.inr (List.mem_cons_of_mem j h))
    have hclen : c.length = attrA.mesh.shape.length :=
      ((validIdx_iff attrA.mesh.shape c).mp hc).1
    have hcset : ∀ v, v < k →
        validIdx attrA.mesh.shape (c.set j v) = true := by
      intro v hv
      refine validIdx_set hc hjms ?_
      rw [getD_irrel attrA.mesh.shape j 0 1 hjms, ← hk]
      exact hv
    have hBcond : ∀ p e, B.dims_mapping.get? p = some e → e ≠ [] →
        0 + p ≠ a := by
      intro p e hp hne h0
      have hpa : p = a := by omega
      subst hpa
      rw [hgetB] at hp
      cases hp
      exact hne rfl
    have hcoordB : ∀ p j' r', B.dims_mapping.get? p = some (j' :: r') →
        c.getD j' 0 < attrA.mesh.shape.getD j' 1 := by
      intro p j' r' hp
      have hj'mem := hsub j' (mem_mappingRefs _ p _ hp j' (by simp))
      have hj'lt : j' < attrA.mesh.shape.length := by
        have h3 := (validAttr_parts hvA).2.2
        have h4 := List.all_eq_true.mp h3 _ hj'mem
        simpa using h4
      have h5 := ((validIdx_iff attrA.mesh.shape c).mp hc).2 j' hj'lt
      rw [getD_irrel attrA.mesh.shape j' 1 0 hj'lt]
      exact h5
    have hMBlen : (multiSliceGo attrA.mesh.shape gs c 0
        B.dims_mapping F).shape.length = gs.length := by
      rw [multiSliceGo_length, hFs2]
    have hMBa : (multiSliceGo attrA.mesh.shape gs c 0
        B.dims_mapping F).shape.getD a 0 = gs.getD a 0 := by
      rw [multiSliceGo_shape_getD attrA.mesh.shape gs c
        B.dims_mapping 0 F a hBcond, hFs2]
    have haMB : a < (multiSliceGo attrA.mesh.shape gs c 0
        B.dims_mapping F).shape.length := by omega
    have hCA : tensorEq (concatAll a ((List.range k).map
        (fun i => bufs (c.set j i))))
        (multiSliceGo attrA.mesh.shape gs c 0 B.dims_mapping F) := by
      refine concat_slices _ a (gs.getD a 0) k haMB hMBa hkpos _
        (by simp) ?_
      intro q U hU
      have hqk : q < k := by
        have h5 := (List.get?_eq_some.mp hU).1
        simpa using h5
      have hps : ((List.range k).map
          (fun i => bufs (c.set j i))).get? q =
          some (bufs (c.set j q)) := by
        rw [List.get?_eq_getElem?, List.getElem?_map,
          List.getElem?_range hqk]
        rfl
      rw [hU] at hps
      cases hps
      have hcq : (c.set j q).getD j 0 = q :=
        getD_set_self c j q (by omega)
      have hbuf : tensorEq (bufs (c.set j q))
          (multiSliceGo attrA.mesh.shape gs (c.set j q) 0
            attrA.dims_mapping (G (c.set j q))) :=
        (hG (c.set j q) (hcset q hqk)).2.2
      rw [hseta, multiSliceGo_set attrA.mesh.shape gs (c.set j q)
        B.dims_mapping a 0 (G (c.set j q)) j hgetB] at hbuf
      simp only [Nat.zero_add] at hbuf
      rw [hcq, ← hk] at hbuf
      have hag : multiSliceGo attrA.mesh.shape gs (c.set j q) 0
          B.dims_mapping (G (c.set j q)) =
          multiSliceGo attrA.mesh.shape gs c 0
            B.dims_mapping (G (c.set j q)) := by
        refine multiSliceGo_coord_agree attrA.mesh.shape gs
          B.dims_mapping 0 (G (c.set j q)) _ _ ?_
        intro p j' r hp
        have hj'mem : j' ∈ mappingRefs B.dims_mapping :=
          mem_mappingRefs _ p _ hp j' (by simp)
        have hj'j : j ≠ j' := fun h => hnotinB (h ▸ hj'mem)
        exact getD_set_ne c j j' q hj'j
      rw [hag] at hbuf
      have hGs : (G (c.set j q)).shape = gs :=
        (hG (c.set j q) (hcset q hqk)).1
      have hGF : tensorEq (G (c.set j q)) F := by
        have h2 := (hG (c.set j q) (hcset q hqk)).2.1
        rw [hpA] at h2
        exact tensorEq_symm h2
      have hcong : tensorEq
          (multiSliceGo attrA.mesh.shape gs c 0
            B.dims_mapping (G (c.set j q)))
          (multiSliceGo attrA.mesh.shape gs c 0 B.dims_mapping F) := by
        refine multiSliceGo_congr attrA.mesh.shape gs c
          B.dims_mapping 0 _ _ hGF (by rw [hGs]) ?_ (by omega) hcoordB
        intro b hb1 hb2
        rw [hGs]
      have hMBG_len : (multiSliceGo attrA.mesh.shape gs c 0
          B.dims_mapping (G (c.set j q))).shape.length = gs.length := by
        rw [multiSliceGo_length, hGs]
      have hMBG_a : (multiSliceGo attrA.mesh.shape gs c 0
          B.dims_mapping (G (c.set j q))).shape.getD a 0 =
          gs.getD a 0 := by
        rw [multiSliceGo_shape_getD attrA.mesh.shape gs c
          B.dims_mapping 0 (G (c.set j q)) a hBcond, hGs]
      have hstep := sliceAxis_congr hcong a
        (sliceOffset (gs.getD a 0) k q) (sliceSize (gs.getD a 0) k q)
        (by omega) (by rw [hMBG_a]; exact sliceOffset_add_size_le _ _ _ hqk)
      exact tensorEq_trans hbuf hstep
    show tensorEq (sliceAxis (concatAll a ((List.range k).map
        (fun i => bufs (c.set j i)))) a
        (sliceOffset (gs.getD a 0) k (c.getD j 0))
        (sliceSize (gs.getD a 0) k (c.getD j 0)))
      (multiSliceGo attrA.mesh.shape gs c 0 attrA.dims_mapping F)
    rw [hseta, multiSliceGo_set attrA.mesh.shape gs c
      B.dims_mapping a 0 F j hgetB]
    simp only [Nat.zero_add]
    rw [← hk]
    have hcjk : c.getD j 0 < k := by
      have h5 := ((validIdx_iff attrA.mesh.shape c).mp hc).2 j hjms
      rw [getD_irrel attrA.mesh.shape j 0 1 hjms, ← hk] at h5
      exact h5
    refine sliceAxis_congr hCA a
      (sliceOffset (gs.getD a 0) k (c.getD j 0))
      (sliceSize (gs.getD a 0) k (c.getD j 0)) ?_ ?_
    · rw [hCA.1]
      exact haMB
    · rw [hCA.1, hMBa]
      exact sliceOffset_add_size_le _ _ _ hcjk

end Reshard

namespace Reshard

/-- C5: for every distributed tensor `t` and descriptors `A` (its
current one) and `B` reachable from each other by a supported transition
— i.e. `reshard` succeeds in both directions — the round trip
`reshard(reshard(t, B), A)` yields a tensor whose logical value equals
the logical value of the original `t`, for all supported placement-kind
pairs. -/
theorem reshard_round_trip (t t' t'' : DistTensor) (B : DistAttr)
    (F : Tensor) (hrep : represents t F)
    (ht1 : reshard t B = Except.ok t')
    (ht2 : reshard t' t.dist_attr = Except.ok t'') :
    represents t'' F := by
  obtain ⟨attrA, gs, bufs⟩ := t
  obtain ⟨f1, hfind1, hexec1⟩ := reshard_ok ht1
  obtain ⟨f2, hfind2, hexec2⟩ := reshard_ok ht2
  have hfields1 := execute_ok_fields hexec1
  have hs1 : is_suitable f1 attrA B = true := find_ok_suitable hfind1
  have hs2 : is_suitable f2 B attrA = true := by
    have h0 := find_ok_suitable hfind2
    rwa [hfields1.1] at h0
  rcases mutual_pairs hs1 hs2 with ⟨hf1, hf2⟩ | ⟨hf1, hf2⟩ | ⟨hf1, hf2⟩
  · subst hf1
    subst hf2
    simp only [execute] at hexec1
    cases hexec1
    simp only [execute] at hexec2
    cases hexec2
    exact hrep
  · obtain ⟨a, j, hn1, ht'eq⟩ := execute_rToS_ok hf1 hexec1
    obtain ⟨a2, j2, hn2, ht''eq⟩ := execute_sToR_ok hf2 hexec2
    have hOr : is_suitable ReshardFunc.rToS attrA B = true ∨
        is_suitable ReshardFunc.rToSCrossMesh attrA B = true := by
      rcases hf1 with rfl | rfl
      · exact Or.inl hs1
      · exact Or.inr hs1
    have hfacts := suit_facts_rToS hOr
    have hn2' : findNewShard attrA.dims_mapping B.dims_mapping =
        some (a2, j2) := by
      rw [ht'eq] at hn2
      exact hn2
    have hn12 := Option.some.inj (hn1.symm.trans hn2')
    have ha2 : a = a2 := congrArg Prod.fst hn12
    have hj2 : j = j2 := congrArg Prod.snd hn12
    subst ha2
    subst hj2
    obtain ⟨a0, j0, hfS, hlt0, hget0, hset0⟩ :=
      oneNewShard_spec hfacts.2.2.2.2.1
    have h00 := Option.some.inj (hfS.symm.trans hn1)
    have ha0 : a = a0 := congrArg Prod.fst h00.symm
    have hj0 : j = j0 := congrArg Prod.snd h00.symm
    subst ha0
    subst hj0
    subst ht'eq
    subst ht''eq
    exact rs_round_represents attrA B gs bufs F a j
      (B.mesh.shape.getD j 1) rfl hrep hfacts.2.1 hfacts.2.2.1
      hget0 hset0 hfacts.2.2.2.2.2
  · obtain ⟨a, j, hn1, ht'eq⟩ := execute_sToR_ok hf1 hexec1
    obtain ⟨a2, j2, hn2, ht''eq⟩ := execute_rToS_ok hf2 hexec2
    have hOr : is_suitable ReshardFunc.sToR attrA B = true ∨
        is_suitable ReshardFunc.sToRCrossMesh attrA B = true := by
      rcases hf1 with rfl | rfl
      · exact Or.inl hs1
      · exact Or.inr hs1
    have hfacts := suit_facts_sToR hOr
    have hn2' : findNewShard B.dims_mapping attrA.dims_mapping =
        some (a2, j2) := by
      rw [ht'eq] at hn2
      exact hn2
    have hn12 := Option.some.inj (hn1.symm.trans hn2')
    have ha2 : a = a2 := congrArg Prod.fst hn12
    have hj2 : j = j2 := congrArg Prod.snd hn12
    subst ha2
    subst hj2
    obtain ⟨a0, j0, hfS, hlt0, hget0, hset0⟩ :=
      oneNewShard_spec hfacts.2.2.2.2.1
    have h00 := Option.some.inj (hfS.symm.trans hn1)
    have ha0 : a = a0 := congrArg Prod.fst h00.symm
    have hj0 : j = j0 := congrArg Prod.snd h00.symm
    subst ha0
    subst hj0
    subst ht'eq
    subst ht''eq
    exact sr_round_represents attrA B gs bufs F a j
      (attrA.mesh.shape.getD j 1) rfl hrep hfacts.2.2.1 hget0 hset0

/-- Witness for C5 at a concrete input: a replicated tensor of shape [2]
resharded to sharded-on-axis-0 and back represents the original logical
tensor. -/
theorem reshard_round_trip_witness :
    ∃ t' t'', reshard demoDist demoSharded = Except.ok t' ∧
      reshard t' demoDist.dist_attr = Except.ok t'' ∧
      represents t'' demoF := by
  have hrep : represents demoDist demoF :=
    ⟨by decide, by decide, rfl, rfl, fun _ => demoF,
      fun c hc => ⟨rfl, tensorEq_refl _, tensorEq_refl _⟩⟩
  refine ⟨_, _, rfl, rfl, ?_⟩
  exact reshard_round_trip demoDist _ _ demoSharded demoF hrep rfl rfl

end Reshard
